import Mathlib

/-!
Verification of the gps-overlay-video telemetry/render pipeline.

Shallow embedding of the Go sources:
* `video.go` — the encoder-side writer loop of `runVideoPipeline`
  (frame reordering buffer);
* the telemetry processor (`preprocessGpxPoints`, `haversine`, `bearing`,
  `angleBetweenBearings`, `cutTrack`, `parseCutBoundary`);
* the track-adjustment resolver (`parseTrackAdjustmentFile`,
  `applyTrackAdjustments`);
* the renderer-side time interpolation (`findPointForTime`).

Go `float64` values are modelled as real numbers (or as rationals where the
code only performs field operations, so that definitions stay executable);
`time.Time`/`time.Duration` values are modelled as (rational or real)
numbers of seconds.
-/

namespace GpsOverlay

/-! ## C1: the encoder-side writer loop of `runVideoPipeline` (video.go)

The writer goroutine receives `Frame{Number, Data}` values in arbitrary order
and writes payloads to ffmpeg's stdin in strict index order, holding
out-of-order arrivals in the map `frameBuffer` and, on every arrival, flushing
the longest contiguous run starting at `nextFrameToWrite`.
The real-time watchdog timeout and the premature-close branch are not part of
the ordering model: with a full set of arrivals neither fires. -/

/-- State of the writer goroutine in `runVideoPipeline`: `buffer` is the
index-keyed holding map `frameBuffer`, `next` is `nextFrameToWrite`, and `out`
is the sequence of frame payloads written to the encoder's stdin so far. -/
structure WriterState (A : Type) where
  buffer : Nat → Option A
  next : Nat
  out : List A

/-- The inner flush loop of the writer goroutine: while the frame numbered
`next` is present in the buffer, write it, delete it from the buffer and
advance `next`.  `fuel` bounds the number of iterations; the pipeline calls it
with fuel `N` (the total frame count), which is an upper bound on the length
of any contiguous run. -/
def flushLoop {A : Type} : Nat → WriterState A → WriterState A
  | 0, s => s
  | fuel + 1, s =>
    match s.buffer s.next with
    | none => s
    | some d =>
        flushLoop fuel
          { buffer := fun k => if k = s.next then none else s.buffer k
            next := s.next + 1
            out := s.out ++ [d] }

/-- One arrival on the frame channel: store the payload under its frame
number, then flush the longest contiguous run starting at `next`. -/
def arrive {A : Type} (N : Nat) (s : WriterState A) (i : Nat) (d : A) : WriterState A :=
  flushLoop N { s with buffer := fun k => if k = i then some d else s.buffer k }

/-- Initial writer state: empty buffer, `nextFrameToWrite = 0`, nothing
written yet. -/
def initWriter (A : Type) : WriterState A := ⟨fun _ => none, 0, []⟩

/-- The writer loop of `runVideoPipeline`, processing the arrivals delivered
on the frame channel in the given order; frame `i` carries payload `f i`. -/
def runWriter {A : Type} (N : Nat) (f : Nat → A) (order : List Nat) : WriterState A :=
  order.foldl (fun s i => arrive N s i (f i)) (initWriter A)

lemma le_foldr_max_of_mem {l : List Nat} {x : Nat} (hx : x ∈ l) :
    x ≤ l.foldr max 0 := by
  induction l with
  | nil => cases hx
  | cons a t ih =>
      rcases List.mem_cons.mp hx with h | h
      · subst h; exact le_max_left _ _
      · exact le_trans (ih h) (le_max_right _ _)

lemma exists_notMem_list (l : List Nat) : ∃ n, n ∉ l := by
  refine ⟨l.foldr max 0 + 1, fun h => ?_⟩
  exact Nat.not_succ_le_self _ (Nat.succ_le_of_lt (Nat.lt_succ_of_le (le_foldr_max_of_mem h)))

/-- The least frame index not occurring in `l`: after the arrivals in `l`
have been processed, this is the next frame the writer is waiting for. -/
def leastAbsent (l : List Nat) : Nat := Nat.find (exists_notMem_list l)

/-- Invariant of the writer loop after the set `S` of frame indices has
arrived: `next` is the least index outside `S`, the output is exactly the
payloads of `0, …, next-1` in order, and the buffer holds exactly the arrived
indices not yet written. -/
def WriterInv {A : Type} (N : Nat) (f : Nat → A) (S : Finset Nat) (s : WriterState A) : Prop :=
  (∀ j ∈ S, j < N) ∧
  s.next ∉ S ∧
  (∀ j, j < s.next → j ∈ S) ∧
  s.out = (List.range s.next).map f ∧
  (∀ k, s.buffer k = if k ∈ S ∧ s.next ≤ k then some (f k) else none)

lemma flushLoop_spec {A : Type} (f : Nat → A) (S : Finset Nat) (m' : Nat)
    (hm'1 : m' ∉ S) (hm'2 : ∀ j, j < m' → j ∈ S) :
    ∀ (fuel : Nat) (s : WriterState A), s.next ≤ m' → m' - s.next ≤ fuel →
      s.out = (List.range s.next).map f →
      (∀ k, s.buffer k = if k ∈ S ∧ s.next ≤ k then some (f k) else none) →
      flushLoop fuel s =
        ⟨fun k => if k ∈ S ∧ m' ≤ k then some (f k) else none, m', (List.range m').map f⟩ := by
  intro fuel
  induction fuel with
  | zero =>
      intro s hle hfuel hout hbuf
      have hnext : s.next = m' := le_antisymm hle (by omega)
      cases s with
      | mk b n o =>
          simp only at hnext hout hbuf
          subst hnext
          show WriterState.mk b n o = _
          rw [WriterState.mk.injEq]
          exact ⟨funext hbuf, rfl, hout⟩
  | succ fuel ih =>
      intro s hle hfuel hout hbuf
      rcases eq_or_lt_of_le hle with heq | hlt
      · cases s with
        | mk b n o =>
            simp only at heq hout hbuf
            subst heq
            have hb : b n = none := by
              have h := hbuf n
              rw [if_neg (fun hx => hm'1 hx.1)] at h
              exact h
            show flushLoop (fuel + 1) (WriterState.mk b n o) = _
            simp only [flushLoop, hb]
            rw [WriterState.mk.injEq]
            exact ⟨funext hbuf, rfl, hout⟩
      · cases s with
        | mk b n o =>
            simp only at hle hfuel hout hbuf hlt
            have hmem : n ∈ S := hm'2 _ hlt
            have hb : b n = some (f n) := by
              have h := hbuf n
              rw [if_pos ⟨hmem, le_refl _⟩] at h
              exact h
            show flushLoop (fuel + 1) (WriterState.mk b n o) = _
            simp only [flushLoop, hb]
            apply ih
            · exact hlt
            · show m' - (n + 1) ≤ fuel
              omega
            · show o ++ [f n] = List.map f (List.range (n + 1))
              rw [List.range_succ, List.map_append, hout]
              rfl
            · intro k
              show (if k = n then none else b k)
                  = if k ∈ S ∧ n + 1 ≤ k then some (f k) else none
              by_cases hk : k = n
              · subst hk
                rw [if_pos rfl, if_neg]
                rintro ⟨-, h2⟩
                omega
              · rw [if_neg hk, hbuf k]
                refine if_congr ?_ rfl rfl
                constructor
                · rintro ⟨h1, h2⟩; exact ⟨h1, by omega⟩
                · rintro ⟨h1, h2⟩; exact ⟨h1, by omega⟩

lemma arrive_spec {A : Type} (N : Nat) (f : Nat → A) (S : Finset Nat) (s : WriterState A)
    (hInv : WriterInv N f S s) (i : Nat) (hiN : i < N) (hiS : i ∉ S) :
    WriterInv N f (insert i S) (arrive N s i (f i)) := by
  obtain ⟨hbound, hnotin, hbelow, hout, hbuf⟩ := hInv
  have hS' : ∀ j ∈ insert i S, j < N := by
    intro j hj
    rcases Finset.mem_insert.mp hj with h | h
    · subst h; exact hiN
    · exact hbound j h
  have hexists : ∃ n, n ∉ insert i S := ⟨N, fun h => lt_irrefl N (hS' N h)⟩
  set m' := Nat.find hexists with hm'def
  have hm'1 : m' ∉ insert i S := Nat.find_spec hexists
  have hm'2 : ∀ j, j < m' → j ∈ insert i S := by
    intro j hj
    by_contra hcon
    have h2 : m' ≤ j := @Nat.find_le _ _ _ hexists hcon
    omega
  have hm'N : m' ≤ N := Nat.find_le (fun h => lt_irrefl N (hS' N h))
  have hnexti : s.next ≤ i := by
    by_contra hcon
    exact hiS (hbelow i (by omega))
  have hnextm' : s.next ≤ m' := by
    by_contra hcon
    push_neg at hcon
    exact hm'1 (Finset.mem_insert_of_mem (hbelow m' hcon))
  have hflush := flushLoop_spec f (insert i S) m' hm'1 hm'2 N
      { s with buffer := fun k => if k = i then some (f i) else s.buffer k }
      hnextm' (show m' - s.next ≤ N by omega) hout ?_
  · unfold arrive
    rw [hflush]
    exact ⟨hS', hm'1, hm'2, rfl, fun k => rfl⟩
  · intro k
    show (if k = i then some (f i) else s.buffer k) = _
    by_cases hk : k = i
    · subst hk
      rw [if_pos rfl, if_pos ⟨Finset.mem_insert_self _ _, hnexti⟩]
    · rw [if_neg hk, hbuf k]
      refine if_congr ?_ rfl rfl
      constructor
      · rintro ⟨h1, h2⟩; exact ⟨Finset.mem_insert_of_mem h1, h2⟩
      · rintro ⟨h1, h2⟩
        rcases Finset.mem_insert.mp h1 with h | h
        · exact absurd h hk
        · exact ⟨h, h2⟩

lemma foldl_arrive_inv {A : Type} (N : Nat) (f : Nat → A) :
    ∀ (l : List Nat) (S : Finset Nat) (s : WriterState A),
      WriterInv N f S s → l.Nodup → (∀ j ∈ l, j < N) → (∀ j ∈ l, j ∉ S) →
      WriterInv N f (S ∪ l.toFinset) (l.foldl (fun s i => arrive N s i (f i)) s) := by
  intro l
  induction l with
  | nil =>
      intro S s hInv _ _ _
      simpa using hInv
  | cons i t ih =>
      intro S s hInv hnodup hlt hnotin
      have hstep := arrive_spec N f S s hInv i (hlt i (List.mem_cons_self i t))
        (hnotin i (List.mem_cons_self i t))
      have hres := ih (insert i S) _ hstep (List.Nodup.of_cons hnodup)
        (fun j hj => hlt j (List.mem_cons_of_mem _ hj))
        (fun j hj => by
          intro hcon
          rcases Finset.mem_insert.mp hcon with h | h
          · exact (List.nodup_cons.mp hnodup).1 (h ▸ hj)
          · exact hnotin j (List.mem_cons_of_mem _ hj) h)
      have hset : insert i S ∪ t.toFinset = S ∪ (i :: t).toFinset := by
        rw [List.toFinset_cons]
        ext x
        simp only [Finset.mem_union, Finset.mem_insert]
        tauto
      rw [List.foldl_cons]
      rw [← hset]
      exact hres

lemma writerInv_init {A : Type} (N : Nat) (f : Nat → A) :
    WriterInv N f ∅ (initWriter A) := by
  refine ⟨fun j hj => absurd hj (Finset.not_mem_empty j), Finset.not_mem_empty _,
    fun j hj => absurd hj (Nat.not_lt_zero j), rfl, fun k => by simp [initWriter]⟩

lemma runWriter_inv {A : Type} (N : Nat) (f : Nat → A) (l : List Nat)
    (hnodup : l.Nodup) (hlt : ∀ j ∈ l, j < N) :
    WriterInv N f l.toFinset (runWriter N f l) := by
  have := foldl_arrive_inv N f l ∅ (initWriter A) (writerInv_init N f) hnodup hlt
    (fun j _ => Finset.not_mem_empty j)
  simpa [runWriter] using this

/-- C1: for every total frame count `N` and every order in which workers
deliver the frames `0..N-1` to the result channel, each exactly once, the
writer loop of `runVideoPipeline` writes the frame payloads to the encoder's
input stream in strict index order `0, 1, …, N-1` with no gaps and no
duplicates; moreover after any prefix of the arrivals the written stream is
exactly the payloads of the longest contiguous run `0..m-1`, where `m` is the
least frame index that has not yet arrived (the index-keyed buffer holds the
rest). -/
theorem runVideoPipeline_writer_ordered {A : Type} (N : Nat) (f : Nat → A) (order : List Nat)
    (hperm : order.Perm (List.range N)) :
    (runWriter N f order).out = (List.range N).map f ∧
    ∀ pre suf, order = pre ++ suf →
      (runWriter N f pre).out = (List.range (leastAbsent pre)).map f := by
  have hnodup : order.Nodup := hperm.nodup_iff.mpr (List.nodup_range N)
  have hmem : ∀ j ∈ order, j < N := by
    intro j hj
    have := hperm.mem_iff.mp hj
    exact List.mem_range.mp this
  constructor
  · obtain ⟨hbound, hnotin, hbelow, hout, hbuf⟩ := runWriter_inv N f order hnodup hmem
    have hsetmem : ∀ j, j ∈ order.toFinset ↔ j < N := by
      intro j
      rw [List.mem_toFinset, hperm.mem_iff, List.mem_range]
    have hnext : (runWriter N f order).next = N := by
      have h1 : (runWriter N f order).next ≤ N := by
        by_contra hcon
        push_neg at hcon
        exact lt_irrefl N ((hsetmem N).mp (hbelow N hcon))
      rcases eq_or_lt_of_le h1 with h | h
      · exact h
      · exact absurd ((hsetmem _).mpr h) hnotin
    rw [hout, hnext]
  · intro pre suf horder
    have hpre_sub : pre.Sublist order := horder ▸ List.sublist_append_left pre suf
    have hpre_nodup : pre.Nodup := hpre_sub.nodup hnodup
    have hpre_mem : ∀ j ∈ pre, j < N := fun j hj => hmem j (hpre_sub.mem hj)
    obtain ⟨hbound, hnotin, hbelow, hout, hbuf⟩ := runWriter_inv N f pre hpre_nodup hpre_mem
    have hnext : (runWriter N f pre).next = leastAbsent pre := by
      apply le_antisymm
      · rw [leastAbsent, Nat.le_find_iff]
        intro m hm
        simp only [Decidable.not_not]
        exact List.mem_toFinset.mp (hbelow m hm)
      · exact Nat.find_le (fun hc => hnotin (List.mem_toFinset.mpr hc))
    rw [hout, hnext]

/-- Witness for C1: three frames delivered in the order 1, 2, 0 are written
to the encoder as payloads 0, 10, 20 in index order. -/
theorem runVideoPipeline_writer_ordered_witness :
    List.Perm [1, 2, 0] (List.range 3) ∧
    (runWriter 3 (fun i => i * 10) [1, 2, 0]).out = (List.range 3).map (fun i => i * 10) := by
  refine ⟨by decide, ?_⟩
  exact (runVideoPipeline_writer_ordered 3 (fun i => i * 10) [1, 2, 0] (by decide)).1

/-! ## C4: renderer-side time interpolation (`findPointForTime`)

`findPointForTime` scans consecutive pairs of series points for the first
pair bracketing the target time and interpolates between them; position and
elevation interpolate on the raw elapsed-time ratio while derived metrics use
`derivedCalcRatio`, forced to `0` when the bracketing interval is shorter
than two seconds.  Fields are modelled over an arbitrary linear ordered
field (`ℚ` for executable witnesses, `ℝ` for the preprocessing pipeline). -/

/-- One GPS series point (struct `Point` of the Go source); `float64` fields
are modelled as elements of `K`, `Timestamp` as seconds from the epoch, and
`TileZoom` as an integer. -/
structure Point (K : Type) where
  lat : K
  lon : K
  ele : K
  speed : K
  slope : K
  distance : K
  smoothedSlope : K
  avgSpeed : K
  mapScale : K
  residualMapScale : K
  bearing : K
  timestamp : K
  tileZoom : ℤ
  deriving DecidableEq

instance {K : Type} [LinearOrderedField K] : Inhabited (Point K) :=
  ⟨⟨0, 0, 0, 0, 0, 0, 0, 0, 0, 0, 0, 0, 0⟩⟩

variable {K : Type} [LinearOrderedField K]

/-- The interpolated point that `findPointForTime` builds from the bracketing
pair `(p1, p2)` at `targetTime` (src/unnamed/part_001, lines 345-371). -/
def interpPoint (p1 p2 : Point K) (targetTime : K) : Point K :=
  let timeDiff := p2.timestamp - p1.timestamp
  if timeDiff = 0 then p1
  else
    let ratio := (targetTime - p1.timestamp) / timeDiff
    let derivedCalcRatio := if timeDiff < 2 then 0 else ratio
    let p2ResidualMapScale :=
      if p1.tileZoom ≠ p2.tileZoom then
        p2.residualMapScale * 2 ^ (p1.tileZoom - p2.tileZoom)
      else p2.residualMapScale
    { lat := p1.lat + (p2.lat - p1.lat) * ratio
      lon := p1.lon + (p2.lon - p1.lon) * ratio
      ele := p1.ele + (p2.ele - p1.ele) * ratio
      speed := p1.speed + (p2.speed - p1.speed) * derivedCalcRatio
      avgSpeed := p1.avgSpeed + (p2.avgSpeed - p1.avgSpeed) * derivedCalcRatio
      slope := p1.slope + (p2.slope - p1.slope) * derivedCalcRatio
      smoothedSlope := p1.smoothedSlope + (p2.smoothedSlope - p1.smoothedSlope) * derivedCalcRatio
      distance := p1.distance + (p2.distance - p1.distance) * derivedCalcRatio
      mapScale := p1.mapScale + (p2.mapScale - p1.mapScale) * ratio
      bearing := p1.bearing
      timestamp := targetTime
      tileZoom := p1.tileZoom
      residualMapScale :=
        p1.residualMapScale + (p2ResidualMapScale - p1.residualMapScale) * ratio }

/-- `findPointForTime` (src/unnamed/part_001, lines 340-375): walk the
consecutive pairs, return the interpolation at the first pair bracketing
`startTime + offset`, falling back to the last point. -/
def findPointForTime (offset startTime : K) : List (Point K) → Point K
  | p1 :: p2 :: rest =>
      if p1.timestamp ≤ startTime + offset ∧ startTime + offset ≤ p2.timestamp then
        interpPoint p1 p2 (startTime + offset)
      else findPointForTime offset startTime (p2 :: rest)
  | [p] => p
  | [] => default

lemma findPointForTime_cons_skip (offset startTime : K) (q q2 : Point K)
    (l : List (Point K))
    (hfail : ¬(q.timestamp ≤ startTime + offset ∧ startTime + offset ≤ q2.timestamp)) :
    findPointForTime offset startTime (q :: q2 :: l) = findPointForTime offset startTime (q2 :: l) := by
  rw [findPointForTime, if_neg hfail]

/-- C4: for every query time strictly between two bracketing series points
whose timestamps differ by less than 2 seconds, `findPointForTime` returns a
point whose `Speed`, `AvgSpeed`, `Slope`, `SmoothedSlope` and `Distance`
equal the earlier bracketing point's values exactly (the derived ratio is
forced to 0), while `Lat`, `Lon` and `Ele` are interpolated linearly by the
elapsed-time ratio between the two bracketing points.  The points before the
bracketing pair carry timestamps not exceeding the earlier bracketing point's
(timestamps are non-decreasing in a preprocessed series). -/
theorem findPointForTime_short_interval_snap (offset startTime : K)
    (pre : List (Point K)) (p1 p2 : Point K) (rest : List (Point K))
    (hpre : ∀ q ∈ pre, q.timestamp ≤ p1.timestamp)
    (h1 : p1.timestamp < startTime + offset)
    (h2 : startTime + offset < p2.timestamp)
    (hshort : p2.timestamp - p1.timestamp < 2) :
    (findPointForTime offset startTime (pre ++ p1 :: p2 :: rest)).speed = p1.speed ∧
    (findPointForTime offset startTime (pre ++ p1 :: p2 :: rest)).avgSpeed = p1.avgSpeed ∧
    (findPointForTime offset startTime (pre ++ p1 :: p2 :: rest)).slope = p1.slope ∧
    (findPointForTime offset startTime (pre ++ p1 :: p2 :: rest)).smoothedSlope = p1.smoothedSlope ∧
    (findPointForTime offset startTime (pre ++ p1 :: p2 :: rest)).distance = p1.distance ∧
    (findPointForTime offset startTime (pre ++ p1 :: p2 :: rest)).lat
      = p1.lat + (p2.lat - p1.lat)
        * ((startTime + offset - p1.timestamp) / (p2.timestamp - p1.timestamp)) ∧
    (findPointForTime offset startTime (pre ++ p1 :: p2 :: rest)).lon
      = p1.lon + (p2.lon - p1.lon)
        * ((startTime + offset - p1.timestamp) / (p2.timestamp - p1.timestamp)) ∧
    (findPointForTime offset startTime (pre ++ p1 :: p2 :: rest)).ele
      = p1.ele + (p2.ele - p1.ele)
        * ((startTime + offset - p1.timestamp) / (p2.timestamp - p1.timestamp)) := by
  induction pre with
  | nil =>
      have hdiff : ¬(p2.timestamp - p1.timestamp = 0) := by
        intro h
        have := lt_trans h1 h2
        nlinarith
      have hfind : findPointForTime offset startTime ([] ++ p1 :: p2 :: rest)
          = interpPoint p1 p2 (startTime + offset) := by
        rw [List.nil_append, findPointForTime, if_pos ⟨le_of_lt h1, le_of_lt h2⟩]
      rw [hfind, interpPoint]
      simp only [if_neg hdiff, if_pos hshort]
      refine ⟨by ring, by ring, by ring, by ring, by ring, by trivial, by trivial, by trivial⟩
  | cons q pre' ih =>
      have ihq := ih (fun r hr => hpre r (List.mem_cons_of_mem q hr))
      cases pre' with
      | nil =>
          rw [List.cons_append, List.nil_append]
          rw [findPointForTime_cons_skip offset startTime q p1 _
            (fun hx => absurd hx.2 (not_le_of_lt h1))]
          simpa using ihq
      | cons q2 pre'' =>
          rw [List.cons_append]
          have hq2 : q2.timestamp ≤ p1.timestamp :=
            hpre q2 (List.mem_cons_of_mem q (List.mem_cons_self q2 pre''))
          rw [show (q2 :: pre'') ++ p1 :: p2 :: rest = q2 :: (pre'' ++ p1 :: p2 :: rest) from rfl]
          rw [findPointForTime_cons_skip offset startTime q q2 _
            (fun hx => absurd hx.2 (not_le_of_lt (lt_of_le_of_lt hq2 h1)))]
          simpa using ihq

/-- Witness for C4: the spec's own example — two points one second apart with
speeds 10 and 20 km/h; at the half-second mark the position is halfway but
the speed snaps to 10. -/
theorem findPointForTime_short_interval_snap_witness :
    (∀ q ∈ ([] : List (Point ℚ)), q.timestamp ≤ (0 : ℚ)) ∧
    ((0 : ℚ) < 0 + 1/2 ∧ (0 : ℚ) + 1/2 < 1 ∧ (1 : ℚ) - 0 < 2) ∧
    (findPointForTime (1/2 : ℚ) 0
        [{ (default : Point ℚ) with speed := 10, lon := 0, timestamp := 0 },
         { (default : Point ℚ) with speed := 20, lon := 1, timestamp := 1 }]).speed
      = 10 := by
  refine ⟨fun q hq => absurd hq (List.not_mem_nil q), ⟨by norm_num, by norm_num, by norm_num⟩, ?_⟩
  exact (findPointForTime_short_interval_snap (1/2 : ℚ) 0 []
    { (default : Point ℚ) with speed := 10, lon := 0, timestamp := 0 }
    { (default : Point ℚ) with speed := 20, lon := 1, timestamp := 1 } []
    (fun q hq => absurd hq (List.not_mem_nil q))
    (by norm_num) (by norm_num) (by norm_num)).1

/-! ## C5: moving-average speed — amortized two-pointer sweep vs naive mean

`preprocessGpxPoints` computes `AvgSpeed` with a two-pointer sweep
(src/unnamed/part_000, lines 412-445): for each point `i` the window is
`[ts i - avgSpeedWindow, ts i + avgSpeedWindow]` with `avgSpeedWindow = 15 s`
(src/unnamed/part_003, line 18); `right` expands while the timestamp is not
after the window end, `left` shrinks while the timestamp is before the window
start, and a running sum/count produce the mean.  The reference definition
`avgSpeedSpec` follows the spec's words: the arithmetic mean of `Speed[j]`
over all `j` whose timestamp lies within ±15 s of point `i`'s, carrying the
previous average (or point 0's own speed) when the window is empty. -/

/-- The window-expansion loop of the sweep: absorb points whose timestamp is
not after `windowEnd` (`!smoothed[right].Timestamp.After(windowEnd)`). -/
def expandRight (ts sp : ℕ → K) (n : ℕ) (windowEnd : K)
    (right : ℕ) (sum : K) (cnt : ℤ) : ℕ × K × ℤ :=
  if h : right < n ∧ ts right ≤ windowEnd then
    expandRight ts sp n windowEnd (right + 1) (sum + sp right) (cnt + 1)
  else (right, sum, cnt)
termination_by n - right
decreasing_by simp_wf; omega

/-- The window-shrink loop of the sweep: drop points whose timestamp is
before `windowStart` (`smoothed[left].Timestamp.Before(windowStart)`). -/
def shrinkLeft (ts sp : ℕ → K) (n : ℕ) (windowStart : K)
    (left : ℕ) (sum : K) (cnt : ℤ) : ℕ × K × ℤ :=
  if h : left < n ∧ ts left < windowStart then
    shrinkLeft ts sp n windowStart (left + 1) (sum - sp left) (cnt - 1)
  else (left, sum, cnt)
termination_by n - left
decreasing_by simp_wf; omega

/-- The per-point body of the sweep over indices `i = 0, …, n-1`, carrying
the two pointers, the running sum/count and the previously computed average;
returns the list of `AvgSpeed` values for indices `i, …, n-1`. -/
def sweepAux (ts sp : ℕ → K) (n i left right : ℕ) (sum : K) (cnt : ℤ) (prevAvg : K) : List K :=
  if h : i < n then
    let er := expandRight ts sp n (ts i + 15) right sum cnt
    let sl := shrinkLeft ts sp n (ts i - 15) left er.2.1 er.2.2
    let a := if 0 < sl.2.2 then sl.2.1 / (sl.2.2 : K) else if 0 < i then prevAvg else sp 0
    a :: sweepAux ts sp n (i + 1) sl.1 er.1 sl.2.1 sl.2.2 a
  else []
termination_by n - i
decreasing_by simp_wf; omega

/-- The moving-average-speed pass of `preprocessGpxPoints`: the two-pointer
sweep started from `left = right = 0` with empty running sum/count. -/
def avgSpeedSweep (ts sp : ℕ → K) (n : ℕ) : List K :=
  sweepAux ts sp n 0 0 0 0 0 0

/-- Modelled from the spec's words: the set of indices whose timestamp lies
within plus or minus 15 seconds of point `i`'s timestamp. -/
def avgWindow (ts : ℕ → K) (n : ℕ) (i : ℕ) : Finset ℕ :=
  (Finset.range n).filter (fun j => |ts j - ts i| ≤ 15)

/-- Modelled from the spec's words: the naive reference definition of the
windowed average speed — the arithmetic mean of the speeds over `avgWindow`,
falling back to the previous point's average (or point 0's own speed) when
the window is empty. -/
def avgSpeedSpec (ts sp : ℕ → K) (n : ℕ) : ℕ → K
  | 0 =>
      if 0 < (avgWindow ts n 0).card
      then (∑ j ∈ avgWindow ts n 0, sp j) / ((avgWindow ts n 0).card : K)
      else sp 0
  | i + 1 =>
      if 0 < (avgWindow ts n (i + 1)).card
      then (∑ j ∈ avgWindow ts n (i + 1), sp j) / ((avgWindow ts n (i + 1)).card : K)
      else avgSpeedSpec ts sp n i

/-- The number of indices `j < n` with `ts j ≤ e`, as the least `j` that is
out of range or has `ts j > e` (for a sorted prefix this is the resting place
of the `right` pointer). -/
def cntLE (ts : ℕ → K) (n : ℕ) (e : K) : ℕ :=
  Nat.find (show ∃ j, n ≤ j ∨ e < ts j from ⟨n, Or.inl le_rfl⟩)

/-- The number of indices `j < n` with `ts j < s` (the resting place of the
`left` pointer). -/
def cntLT (ts : ℕ → K) (n : ℕ) (s : K) : ℕ :=
  Nat.find (show ∃ j, n ≤ j ∨ s ≤ ts j from ⟨n, Or.inl le_rfl⟩)

lemma cntLE_le (ts : ℕ → K) (n : ℕ) (e : K) : cntLE ts n e ≤ n :=
  Nat.find_le (Or.inl le_rfl)

lemma cntLT_le (ts : ℕ → K) (n : ℕ) (s : K) : cntLT ts n s ≤ n :=
  Nat.find_le (Or.inl le_rfl)

lemma lt_cntLE_iff {ts : ℕ → K} {n : ℕ} (hmono : ∀ a b, a ≤ b → b < n → ts a ≤ ts b)
    (e : K) (j : ℕ) : j < cntLE ts n e ↔ j < n ∧ ts j ≤ e := by
  constructor
  · intro hj
    have h := Nat.find_min (show ∃ j, n ≤ j ∨ e < ts j from ⟨n, Or.inl le_rfl⟩) hj
    push_neg at h
    exact ⟨by omega, h.2⟩
  · rintro ⟨hjn, hje⟩
    by_contra hcon
    push_neg at hcon
    simp only [cntLE] at hcon
    have hspec := Nat.find_spec (show ∃ j, n ≤ j ∨ e < ts j from ⟨n, Or.inl le_rfl⟩)
    rcases hspec with h | h
    · omega
    · exact absurd (le_trans (hmono _ _ hcon hjn) hje) (not_le_of_lt h)

lemma lt_cntLT_iff {ts : ℕ → K} {n : ℕ} (hmono : ∀ a b, a ≤ b → b < n → ts a ≤ ts b)
    (s : K) (j : ℕ) : j < cntLT ts n s ↔ j < n ∧ ts j < s := by
  constructor
  · intro hj
    have h := Nat.find_min (show ∃ j, n ≤ j ∨ s ≤ ts j from ⟨n, Or.inl le_rfl⟩) hj
    push_neg at h
    exact ⟨by omega, h.2⟩
  · rintro ⟨hjn, hjs⟩
    by_contra hcon
    push_neg at hcon
    simp only [cntLT] at hcon
    have hspec := Nat.find_spec (show ∃ j, n ≤ j ∨ s ≤ ts j from ⟨n, Or.inl le_rfl⟩)
    rcases hspec with h | h
    · omega
    · exact absurd (lt_of_le_of_lt (le_trans h (hmono _ _ hcon hjn)) hjs) (lt_irrefl s)

lemma cntLE_mono {ts : ℕ → K} {n : ℕ} (hmono : ∀ a b, a ≤ b → b < n → ts a ≤ ts b)
    {e e' : K} (h : e ≤ e') : cntLE ts n e ≤ cntLE ts n e' := by
  by_contra hcon
  push_neg at hcon
  have h1 := (lt_cntLE_iff hmono e (cntLE ts n e')).mp hcon
  have h2 := (lt_cntLE_iff hmono e' (cntLE ts n e')).mpr ⟨h1.1, le_trans h1.2 h⟩
  omega

lemma cntLT_mono {ts : ℕ → K} {n : ℕ} (hmono : ∀ a b, a ≤ b → b < n → ts a ≤ ts b)
    {s s' : K} (h : s ≤ s') : cntLT ts n s ≤ cntLT ts n s' := by
  by_contra hcon
  push_neg at hcon
  have h1 := (lt_cntLT_iff hmono s (cntLT ts n s')).mp hcon
  have h2 := (lt_cntLT_iff hmono s' (cntLT ts n s')).mpr ⟨h1.1, lt_of_lt_of_le h1.2 h⟩
  omega

lemma cntLT_le_cntLE {ts : ℕ → K} {n : ℕ} (hmono : ∀ a b, a ≤ b → b < n → ts a ≤ ts b)
    {s e : K} (h : s ≤ e) : cntLT ts n s ≤ cntLE ts n e := by
  by_contra hcon
  push_neg at hcon
  have h1 := (lt_cntLT_iff hmono s (cntLE ts n e)).mp hcon
  have h2 := (lt_cntLE_iff hmono e (cntLE ts n e)).mpr ⟨h1.1, le_of_lt (lt_of_lt_of_le h1.2 h)⟩
  omega

lemma expandRight_spec {ts sp : ℕ → K} {n : ℕ}
    (hmono : ∀ a b, a ≤ b → b < n → ts a ≤ ts b) (e : K) :
    ∀ (d right : ℕ) (sum : K) (cnt : ℤ), cntLE ts n e - right = d → right ≤ cntLE ts n e →
      expandRight ts sp n e right sum cnt
        = (cntLE ts n e, sum + ∑ j ∈ Finset.Ico right (cntLE ts n e), sp j,
           cnt + ((cntLE ts n e : ℤ) - (right : ℤ))) := by
  intro d
  induction d with
  | zero =>
      intro right sum cnt hd hle
      have heq : right = cntLE ts n e := by omega
      rw [expandRight, dif_neg]
      · rw [heq]; simp
      · rintro ⟨h1, h2⟩
        have h3 := (lt_cntLE_iff hmono e right).mpr ⟨h1, h2⟩
        omega
  | succ d ih =>
      intro right sum cnt hd hle
      have hlt : right < cntLE ts n e := by omega
      have hcond := (lt_cntLE_iff hmono e right).mp hlt
      rw [expandRight, dif_pos ⟨hcond.1, hcond.2⟩]
      rw [ih (right + 1) (sum + sp right) (cnt + 1) (by omega) (by omega)]
      rw [Prod.mk.injEq, Prod.mk.injEq]
      refine ⟨rfl, ?_, ?_⟩
      · rw [Finset.sum_eq_sum_Ico_succ_bot hlt]
        ring
      · push_cast
        ring

lemma shrinkLeft_spec {ts sp : ℕ → K} {n : ℕ}
    (hmono : ∀ a b, a ≤ b → b < n → ts a ≤ ts b) (s : K) :
    ∀ (d left : ℕ) (sum : K) (cnt : ℤ), cntLT ts n s - left = d → left ≤ cntLT ts n s →
      shrinkLeft ts sp n s left sum cnt
        = (cntLT ts n s, sum - ∑ j ∈ Finset.Ico left (cntLT ts n s), sp j,
           cnt - ((cntLT ts n s : ℤ) - (left : ℤ))) := by
  intro d
  induction d with
  | zero =>
      intro left sum cnt hd hle
      have heq : left = cntLT ts n s := by omega
      rw [shrinkLeft, dif_neg]
      · rw [heq]; simp
      · rintro ⟨h1, h2⟩
        have h3 := (lt_cntLT_iff hmono s left).mpr ⟨h1, h2⟩
        omega
  | succ d ih =>
      intro left sum cnt hd hle
      have hlt : left < cntLT ts n s := by omega
      have hcond := (lt_cntLT_iff hmono s left).mp hlt
      rw [shrinkLeft, dif_pos ⟨hcond.1, hcond.2⟩]
      rw [ih (left + 1) (sum - sp left) (cnt - 1) (by omega) (by omega)]
      rw [Prod.mk.injEq, Prod.mk.injEq]
      refine ⟨rfl, ?_, ?_⟩
      · rw [Finset.sum_eq_sum_Ico_succ_bot hlt]
        ring
      · push_cast
        ring

lemma avgWindow_eq_Ico {ts : ℕ → K} {n : ℕ}
    (hmono : ∀ a b, a ≤ b → b < n → ts a ≤ ts b) (i : ℕ) :
    avgWindow ts n i = Finset.Ico (cntLT ts n (ts i - 15)) (cntLE ts n (ts i + 15)) := by
  ext j
  simp only [avgWindow, Finset.mem_filter, Finset.mem_range, Finset.mem_Ico]
  constructor
  · rintro ⟨hjn, habs⟩
    rw [abs_le] at habs
    constructor
    · by_contra hcon
      push_neg at hcon
      have h := (lt_cntLT_iff hmono _ j).mp hcon
      linarith [habs.1, h.2]
    · exact (lt_cntLE_iff hmono _ j).mpr ⟨hjn, by linarith [habs.2]⟩
  · rintro ⟨hL, hR⟩
    have h1 := (lt_cntLE_iff hmono _ j).mp hR
    refine ⟨h1.1, ?_⟩
    rw [abs_le]
    have h2 : ¬(j < cntLT ts n (ts i - 15)) := by omega
    rw [lt_cntLT_iff hmono] at h2
    push_neg at h2
    have h3 := h2 h1.1
    constructor <;> linarith [h1.2]

/-- Invariant of the two-pointer sweep before processing index `i`. -/
def SweepInv (ts sp : ℕ → K) (n i left right : ℕ) (sum : K) (cnt : ℤ) (prevAvg : K) : Prop :=
  (i = 0 ∧ left = 0 ∧ right = 0 ∧ sum = 0 ∧ cnt = 0) ∨
  (∃ i', i = i' + 1 ∧ right = cntLE ts n (ts i' + 15) ∧ left = cntLT ts n (ts i' - 15) ∧
    left ≤ right ∧ (sum = ∑ j ∈ Finset.Ico left right, sp j) ∧
    cnt = (right : ℤ) - (left : ℤ) ∧ prevAvg = avgSpeedSpec ts sp n i')

lemma sweepAux_spec {ts sp : ℕ → K} {n : ℕ}
    (hmono : ∀ a b, a ≤ b → b < n → ts a ≤ ts b) :
    ∀ (d i left right : ℕ) (sum : K) (cnt : ℤ) (prevAvg : K),
      n - i = d → SweepInv ts sp n i left right sum cnt prevAvg →
      sweepAux ts sp n i left right sum cnt prevAvg
        = (List.range d).map (fun k => avgSpeedSpec ts sp n (i + k)) := by
  intro d
  induction d with
  | zero =>
      intro i left right sum cnt prevAvg hd hinv
      rw [sweepAux, dif_neg (by omega)]
      simp
  | succ d ih =>
      intro i left right sum cnt prevAvg hd hinv
      have hin : i < n := by omega
      have hts : ts i - 15 ≤ ts i + 15 := by linarith [abs_nonneg (ts i)]
      have hLR : cntLT ts n (ts i - 15) ≤ cntLE ts n (ts i + 15) := cntLT_le_cntLE hmono hts
      have hfacts : left ≤ right ∧ right ≤ cntLE ts n (ts i + 15) ∧
          left ≤ cntLT ts n (ts i - 15) ∧ (sum = ∑ j ∈ Finset.Ico left right, sp j) ∧
          cnt = (right : ℤ) - (left : ℤ) := by
        rcases hinv with ⟨h0, hl, hr, hs, hc⟩ | ⟨i', hi', hr, hl, hlr, hs, hc, hp⟩
        · subst hl; subst hr
          refine ⟨le_refl 0, Nat.zero_le _, Nat.zero_le _, by simpa using hs, by simpa using hc⟩
        · have hii : ts i' ≤ ts i := hmono i' i (by omega) hin
          refine ⟨hlr, ?_, ?_, hs, hc⟩
          · rw [hr]; exact cntLE_mono hmono (by linarith)
          · rw [hl]; exact cntLT_mono hmono (by linarith)
      obtain ⟨hlr, hrR, hlL, hsum, hcnt⟩ := hfacts
      have hER := @expandRight_spec K _ ts sp n hmono (ts i + 15)
        (cntLE ts n (ts i + 15) - right) right sum cnt (by omega) hrR
      have hSL := @shrinkLeft_spec K _ ts sp n hmono (ts i - 15)
        (cntLT ts n (ts i - 15) - left)
        left (sum + ∑ j ∈ Finset.Ico right (cntLE ts n (ts i + 15)), sp j)
        (cnt + ((cntLE ts n (ts i + 15) : ℤ) - (right : ℤ))) (by omega) (by omega)
      rw [sweepAux, dif_pos hin]
      simp only [hER, hSL]
      set R := cntLE ts n (ts i + 15) with hRdef
      set L := cntLT ts n (ts i - 15) with hLdef
      have e1 : (∑ j ∈ Finset.Ico left right, sp j) + ∑ j ∈ Finset.Ico right R, sp j
          = ∑ j ∈ Finset.Ico left R, sp j := Finset.sum_Ico_consecutive sp hlr hrR
      have e2 : (∑ j ∈ Finset.Ico left L, sp j) + ∑ j ∈ Finset.Ico L R, sp j
          = ∑ j ∈ Finset.Ico left R, sp j := Finset.sum_Ico_consecutive sp hlL hLR
      have hsum2 : sum + (∑ j ∈ Finset.Ico right R, sp j) - ∑ j ∈ Finset.Ico left L, sp j
          = ∑ j ∈ Finset.Ico L R, sp j := by
        rw [hsum]; linarith
      have hcnt2 : cnt + ((R : ℤ) - (right : ℤ)) - ((L : ℤ) - (left : ℤ))
          = (R : ℤ) - (L : ℤ) := by
        rw [hcnt]; ring
      rw [hsum2, hcnt2]
      have hwin : avgWindow ts n i = Finset.Ico L R := avgWindow_eq_Ico hmono i
      have hcard : (avgWindow ts n i).card = R - L := by rw [hwin]; exact Nat.card_Ico L R
      have haval : (if 0 < (R : ℤ) - (L : ℤ) then (∑ j ∈ Finset.Ico L R, sp j) / (((R : ℤ) - (L : ℤ) : ℤ) : K)
            else if 0 < i then prevAvg else sp 0) = avgSpeedSpec ts sp n i := by
        by_cases hpos : L < R
        · rw [if_pos (by omega)]
          have hcast : (((R : ℤ) - (L : ℤ) : ℤ) : K) = ((avgWindow ts n i).card : K) := by
            rw [hcard]
            push_cast [Nat.cast_sub (le_of_lt hpos)]
            ring
          rcases Nat.eq_zero_or_pos i with hi0 | hipos
          · subst hi0
            rw [show avgSpeedSpec ts sp n 0
                = if 0 < (avgWindow ts n 0).card
                  then (∑ j ∈ avgWindow ts n 0, sp j) / ((avgWindow ts n 0).card : K)
                  else sp 0 from rfl]
            rw [if_pos (by omega)]
            rw [hcast, hwin]
          · obtain ⟨i', rfl⟩ : ∃ i', i = i' + 1 := ⟨i - 1, by omega⟩
            rw [show avgSpeedSpec ts sp n (i' + 1)
                = if 0 < (avgWindow ts n (i' + 1)).card
                  then (∑ j ∈ avgWindow ts n (i' + 1), sp j) / ((avgWindow ts n (i' + 1)).card : K)
                  else avgSpeedSpec ts sp n i' from rfl]
            rw [if_pos (by omega)]
            rw [hcast, hwin]
        · rw [if_neg (by omega)]
          rcases hinv with ⟨h0, hl, hr, hs, hc⟩ | ⟨i', hi', hr, hl, hlr', hs, hc, hp⟩
          · subst h0
            rw [if_neg (lt_irrefl 0)]
            rw [show avgSpeedSpec ts sp n 0
                = if 0 < (avgWindow ts n 0).card
                  then (∑ j ∈ avgWindow ts n 0, sp j) / ((avgWindow ts n 0).card : K)
                  else sp 0 from rfl]
            rw [if_neg (by rw [hcard]; omega)]
          · subst hi'
            rw [if_pos (by omega), hp]
            rw [show avgSpeedSpec ts sp n (i' + 1)
                = if 0 < (avgWindow ts n (i' + 1)).card
                  then (∑ j ∈ avgWindow ts n (i' + 1), sp j) / ((avgWindow ts n (i' + 1)).card : K)
                  else avgSpeedSpec ts sp n i' from rfl]
            rw [if_neg (by rw [hcard]; omega)]
      rw [haval]
      rw [ih (i + 1) L R (∑ j ∈ Finset.Ico L R, sp j) ((R : ℤ) - (L : ℤ))
        (avgSpeedSpec ts sp n i) (by omega)
        (Or.inr ⟨i, rfl, hRdef, hLdef, hLR, rfl, rfl, rfl⟩)]
      rw [List.range_succ_eq_map, List.map_cons, List.map_map]
      have htail : List.map (fun k => avgSpeedSpec ts sp n (i + 1 + k)) (List.range d)
          = List.map ((fun k => avgSpeedSpec ts sp n (i + k)) ∘ Nat.succ) (List.range d) := by
        apply List.map_congr_left
        intro k hk
        simp only [Function.comp_apply]
        congr 1
        omega
      rw [htail, List.cons.injEq]
      exact ⟨by simp, rfl⟩

/-- C5: under the precondition that the series timestamps are non-decreasing,
the amortized two-pointer sweep computing `AvgSpeed` is equivalent to the
naive reference definition: for every index `i`, `AvgSpeed[i]` equals the
arithmetic mean of `Speed[j]` over all indices `j` whose timestamp lies
within plus or minus 15 seconds of point `i`'s timestamp, and when that
window is empty the value equals the previous point's average (or point 0's
own speed at index 0). -/
theorem avgSpeedSweep_eq_spec (ts sp : ℕ → K) (n : ℕ)
    (hmono : ∀ a b, a ≤ b → b < n → ts a ≤ ts b) (i : ℕ) (hi : i < n) :
    (avgSpeedSweep ts sp n)[i]? = some (avgSpeedSpec ts sp n i) := by
  have h := @sweepAux_spec K _ ts sp n hmono n 0 0 0 0 0 0 (by omega)
    (Or.inl ⟨rfl, rfl, rfl, rfl, rfl⟩)
  rw [avgSpeedSweep, h, List.getElem?_map, List.getElem?_range hi]
  simp

/-- Witness for C5 at three concrete points one second apart (all three
timestamps lie inside every ±15 s window). -/
theorem avgSpeedSweep_eq_spec_witness :
    (∀ a b : ℕ, a ≤ b → b < 3 → ((a : ℚ) ≤ (b : ℚ))) ∧
    (avgSpeedSweep (fun j => (j : ℚ)) (fun j => (j : ℚ) + 1) 3)[1]?
      = some (avgSpeedSpec (fun j => (j : ℚ)) (fun j => (j : ℚ) + 1) 3 1) := by
  refine ⟨fun a b hab _ => by exact_mod_cast hab, ?_⟩
  exact avgSpeedSweep_eq_spec (fun j => (j : ℚ)) (fun j => (j : ℚ) + 1) 3
    (fun a b hab _ => by show ((a : ℚ) ≤ (b : ℚ)); exact_mod_cast hab) 1 (by omega)

/-! ## Geodesy primitives and Go float helpers (over ℝ)

`math.Atan2`, `math.Mod` and Go's float-to-int conversion are modelled on ℝ
with their mathematical semantics on finite inputs: `Atan2` is the
quadrant-aware arctangent, `Mod x y = x - y*trunc(x/y)` keeps the sign of the
dividend, and `int(f)` truncates toward zero. -/

/-- Go's float-to-int conversion `int(r)`: truncation toward zero. -/
noncomputable def goTrunc (r : ℝ) : ℤ := if 0 ≤ r then ⌊r⌋ else ⌈r⌉

/-- Go's `math.Mod x y`: `x - y * trunc(x/y)`, sign of the dividend. -/
noncomputable def goMod (x y : ℝ) : ℝ := x - y * (goTrunc (x / y) : ℝ)

/-- Go's `math.Atan2 y x` for finite arguments. -/
noncomputable def atan2 (y x : ℝ) : ℝ :=
  if 0 < x then Real.arctan (y / x)
  else if x < 0 then
    (if 0 ≤ y then Real.arctan (y / x) + Real.pi else Real.arctan (y / x) - Real.pi)
  else (if 0 < y then Real.pi / 2 else if y < 0 then -(Real.pi / 2) else 0)

lemma arctan_nonneg_of_nonneg {t : ℝ} (h : 0 ≤ t) : 0 ≤ Real.arctan t := by
  have := Real.arctan_strictMono.monotone h
  rwa [Real.arctan_zero] at this

lemma atan2_nonneg (y x : ℝ) (hy : 0 ≤ y) : 0 ≤ atan2 y x := by
  have hpi := Real.pi_pos
  rw [atan2]
  by_cases h1 : 0 < x
  · rw [if_pos h1]
    exact arctan_nonneg_of_nonneg (div_nonneg hy (le_of_lt h1))
  · rw [if_neg h1]
    by_cases h2 : x < 0
    · rw [if_pos h2, if_pos hy]
      have := Real.neg_pi_div_two_lt_arctan (y / x)
      linarith
    · rw [if_neg h2]
      by_cases h3 : 0 < y
      · rw [if_pos h3]
        linarith
      · rw [if_neg h3, if_neg (not_lt_of_le hy)]

/-- `haversine` (src/unnamed/part_000, lines 579-593): great-circle distance
between two points on a spherical Earth of radius `R = 6371` km. -/
noncomputable def haversine (p1 p2 : Point ℝ) : ℝ :=
  let lat1 := p1.lat * Real.pi / 180
  let lon1 := p1.lon * Real.pi / 180
  let lat2 := p2.lat * Real.pi / 180
  let lon2 := p2.lon * Real.pi / 180
  let dLat := lat2 - lat1
  let dLon := lon2 - lon1
  let a := Real.sin (dLat / 2) * Real.sin (dLat / 2)
    + Real.cos lat1 * Real.cos lat2 * (Real.sin (dLon / 2) * Real.sin (dLon / 2))
  let c := 2 * atan2 (Real.sqrt a) (Real.sqrt (1 - a))
  6371 * c

lemma haversine_nonneg (p1 p2 : Point ℝ) : 0 ≤ haversine p1 p2 := by
  have key : ∀ a : ℝ, 0 ≤ 6371 * (2 * atan2 (Real.sqrt a) (Real.sqrt (1 - a))) := by
    intro a
    have h := atan2_nonneg (Real.sqrt a) (Real.sqrt (1 - a)) (Real.sqrt_nonneg a)
    linarith
  exact key _

/-- `bearing` (src/unnamed/part_000, lines 595-609): forward azimuth between
two points, in radians. -/
noncomputable def bearing (p1 p2 : Point ℝ) : ℝ :=
  let lat1 := p1.lat * Real.pi / 180
  let lon1 := p1.lon * Real.pi / 180
  let lat2 := p2.lat * Real.pi / 180
  let lon2 := p2.lon * Real.pi / 180
  let dLon := lon2 - lon1
  let y := Real.sin dLon * Real.cos lat2
  let x := Real.cos lat1 * Real.sin lat2 - Real.sin lat1 * Real.cos lat2 * Real.cos dLon
  atan2 y x

/-- `angleBetweenBearings` (src/unnamed/part_000, lines 611-615):
`|Mod(b2 - b1 + π, 2π) - π|`. -/
noncomputable def angleBetweenBearings (bearing1 bearing2 : ℝ) : ℝ :=
  |goMod (bearing2 - bearing1 + Real.pi) (2 * Real.pi) - Real.pi|

/-! ## C6: the bearing-smoothing pass of `preprocessGpxPoints`

Lines 469-484 of src/unnamed/part_000: `newBearings[0]` is the first bearing,
each interior index keeps its own bearing when the turn from the previous
point's bearing is at most π/4 and otherwise holds the previous `newBearings`
entry, and only interior indices are written back. -/

/-- The `newBearings` array: entry `0` is `smoothed[0].Bearing`, interior
entries follow the turn-rejection rule, entries from `n-1` on are never
written (the Go array stays at its zero value there). -/
noncomputable def newBearings (n : ℕ) (b : ℕ → ℝ) : ℕ → ℝ
  | 0 => b 0
  | i + 1 =>
      if i + 1 < n - 1 then
        (if angleBetweenBearings (b i) (b (i + 1)) ≤ Real.pi / 4 then b (i + 1)
         else newBearings n b i)
      else 0

/-- The write-back loop: interior points receive the smoothed bearing,
endpoints keep their original one. -/
noncomputable def smoothedBearing (n : ℕ) (b : ℕ → ℝ) (i : ℕ) : ℝ :=
  if 1 ≤ i ∧ i < n - 1 then newBearings n b i else b i

/-- C6: the bearing-smoothing pass rejects any turn exceeding 45 degrees:
at every interior series point, if the turn (as computed by
`angleBetweenBearings`) from the previous point's bearing exceeds π/4 the
smoothed bearing holds the previous smoothed value, and otherwise the point's
own bearing passes through unchanged. -/
theorem smoothedBearing_turn_rule (n : ℕ) (b : ℕ → ℝ) (i : ℕ)
    (h1 : 1 ≤ i) (h2 : i < n - 1) :
    smoothedBearing n b i
      = if angleBetweenBearings (b (i - 1)) (b i) ≤ Real.pi / 4 then b i
        else smoothedBearing n b (i - 1) := by
  obtain ⟨j, rfl⟩ : ∃ j, i = j + 1 := ⟨i - 1, by omega⟩
  rw [smoothedBearing, if_pos ⟨h1, h2⟩]
  rw [show (j + 1 : ℕ) - 1 = j from rfl]
  rw [newBearings, if_pos h2]
  by_cases hangle : angleBetweenBearings (b j) (b (j + 1)) ≤ Real.pi / 4
  · rw [if_pos hangle, if_pos hangle]
  · rw [if_neg hangle, if_neg hangle]
    rcases Nat.eq_zero_or_pos j with h0 | hpos
    · subst h0
      rw [smoothedBearing, if_neg (by omega)]
      rfl
    · rw [smoothedBearing, if_pos ⟨hpos, by omega⟩]

lemma angleBetweenBearings_zero_left {t : ℝ} (h0 : 0 ≤ t) (hlt : t < Real.pi) :
    angleBetweenBearings 0 t = t := by
  have hpi := Real.pi_pos
  have hdiv : (t - 0 + Real.pi) / (2 * Real.pi) < 1 := by
    rw [div_lt_one (by linarith)]
    linarith
  have hdiv0 : 0 ≤ (t - 0 + Real.pi) / (2 * Real.pi) := by
    apply div_nonneg <;> linarith
  have htr : goTrunc ((t - 0 + Real.pi) / (2 * Real.pi)) = 0 := by
    rw [goTrunc, if_pos hdiv0]
    exact Int.floor_eq_zero_iff.mpr ⟨hdiv0, hdiv⟩
  have hval : goMod (t - 0 + Real.pi) (2 * Real.pi) - Real.pi = t := by
    rw [goMod, htr, Int.cast_zero]
    ring
  rw [angleBetweenBearings, hval]
  exact abs_of_nonneg h0

/-- Witness for C6: with bearings `0, π/2, π/2` the synthetic 90° turn at the
interior point is suppressed (the smoothed bearing stays at the pre-turn
value 0), while with bearings `0, π/18, π/18` the 10° turn passes through
unchanged. -/
theorem smoothedBearing_turn_rule_witness :
    (1 ≤ 1 ∧ 1 < 3 - 1) ∧
    smoothedBearing 3 (fun i => if i = 0 then 0 else Real.pi / 2) 1 = 0 ∧
    smoothedBearing 3 (fun i => if i = 0 then 0 else Real.pi / 18) 1 = Real.pi / 18 := by
  have hpi := Real.pi_pos
  refine ⟨⟨le_refl 1, by omega⟩, ?_, ?_⟩
  · rw [smoothedBearing_turn_rule 3 (fun i => if i = 0 then 0 else Real.pi / 2) 1
      (le_refl 1) (by omega)]
    have hangle : angleBetweenBearings ((fun i => if i = 0 then (0 : ℝ) else Real.pi / 2) (1 - 1))
        ((fun i => if i = 0 then (0 : ℝ) else Real.pi / 2) 1) = Real.pi / 2 := by
      have h1 : ((fun i => if i = 0 then (0 : ℝ) else Real.pi / 2) (1 - 1)) = 0 := rfl
      have h2 : ((fun i => if i = 0 then (0 : ℝ) else Real.pi / 2) 1) = Real.pi / 2 := rfl
      rw [h1, h2]
      exact angleBetweenBearings_zero_left (by linarith) (by linarith)
    rw [hangle, if_neg (by linarith)]
    rw [smoothedBearing, if_neg (by omega)]
    rfl
  · rw [smoothedBearing_turn_rule 3 (fun i => if i = 0 then 0 else Real.pi / 18) 1
      (le_refl 1) (by omega)]
    have hangle : angleBetweenBearings ((fun i => if i = 0 then (0 : ℝ) else Real.pi / 18) (1 - 1))
        ((fun i => if i = 0 then (0 : ℝ) else Real.pi / 18) 1) = Real.pi / 18 := by
      have h1 : ((fun i => if i = 0 then (0 : ℝ) else Real.pi / 18) (1 - 1)) = 0 := rfl
      have h2 : ((fun i => if i = 0 then (0 : ℝ) else Real.pi / 18) 1) = Real.pi / 18 := rfl
      rw [h1, h2]
      exact angleBetweenBearings_zero_left (by linarith) (by linarith)
    rw [hangle, if_pos (by linarith)]
    rfl

/-! ## C2: zoom / residual-scale decomposition

Lines 562-574 of src/unnamed/part_000: for each point,
`zoomOutLevels = Floor(Log2(MapScale))` when `MapScale > 1` (else 0),
`TileZoom = MapZoom - int(zoomOutLevels)` clamped below at 0, and
`ResidualMapScale = MapScale / Pow(2, zoomOutLevels)`. -/

/-- `zoomOutLevels` as a float (the Go local variable). -/
noncomputable def zoomOutLevels (scale : ℝ) : ℝ :=
  if 1 < scale then ((⌊Real.logb 2 scale⌋ : ℤ) : ℝ) else 0

/-- `p.TileZoom = args.MapZoom - int(zoomOutLevels)`, clamped below at 0. -/
noncomputable def tileZoomOf (mapZoom : ℤ) (scale : ℝ) : ℤ :=
  let t := mapZoom - goTrunc (zoomOutLevels scale)
  if t < 0 then 0 else t

/-- `p.ResidualMapScale = p.MapScale / math.Pow(2, zoomOutLevels)`. -/
noncomputable def residualMapScaleOf (scale : ℝ) : ℝ :=
  scale / Real.rpow 2 (zoomOutLevels scale)

lemma zoom_decomposition (mapZoom : ℤ) (s : ℝ) :
    residualMapScaleOf s * (2 : ℝ) ^ (if 1 < s then ⌊Real.logb 2 s⌋ else 0)
      = s ∧
    residualMapScaleOf s = s / (2 : ℝ) ^ (if 1 < s then ⌊Real.logb 2 s⌋ else 0) ∧
    tileZoomOf mapZoom s = max 0 (mapZoom - (if 1 < s then ⌊Real.logb 2 s⌋ else 0)) := by
  set d : ℤ := if 1 < s then ⌊Real.logb 2 s⌋ else 0 with hd
  have hcast : zoomOutLevels s = (d : ℝ) := by
    rw [zoomOutLevels, hd]
    by_cases h : 1 < s
    · rw [if_pos h, if_pos h]
    · rw [if_neg h, if_neg h, Int.cast_zero]
  have hpow : Real.rpow 2 (zoomOutLevels s) = (2 : ℝ) ^ d := by
    rw [hcast]
    exact Real.rpow_intCast 2 d
  have hne : ((2 : ℝ) ^ d) ≠ 0 := zpow_ne_zero d two_ne_zero
  have hres : residualMapScaleOf s = s / (2 : ℝ) ^ d := by
    rw [residualMapScaleOf, hpow]
  refine ⟨?_, hres, ?_⟩
  · rw [hres]
    exact div_mul_cancel₀ s hne
  · have hd0 : 0 ≤ d := by
      rw [hd]
      by_cases h : 1 < s
      · rw [if_pos h]
        exact Int.floor_nonneg.mpr (Real.logb_nonneg (by norm_num) (le_of_lt h))
      · rw [if_neg h]
    have htr : goTrunc (zoomOutLevels s) = d := by
      rw [hcast, goTrunc, if_pos (by exact_mod_cast hd0)]
      exact Int.floor_intCast d
    rw [tileZoomOf, htr]
    omega

/-! ## C3: track-adjustment scale interpolation (`applyTrackAdjustments`)

Lines 322-366 of src/unnamed/part_000: after resolving directives to
`ScaleChange` values, the multiplier slice is filled with the initial scale
and each directive interpolates from the previous directive's target scale to
its own, linearly in log2 space over its transition duration, snapping to the
target once the duration has elapsed. -/

/-- A resolved scale directive (struct `ScaleChange` of the Go source). -/
structure ScaleChange (K : Type) where
  pointIndex : ℕ
  targetScale : K
  transitionDuration : K

/-- The multiplier assigned to one point (lines 352-364): log2-space linear
interpolation while inside the transition window, with progress clamped below
at 0, and exactly the target scale from the end of the window on. -/
noncomputable def interpolatedScale (prevScale : ℝ) (chg : ScaleChange ℝ) (timeSince : ℝ) : ℝ :=
  if timeSince < chg.transitionDuration then
    let progress := timeSince / chg.transitionDuration
    let progress2 := if progress < 0 then 0 else progress
    Real.rpow 2 (Real.logb 2 prevScale
      + progress2 * (Real.logb 2 chg.targetScale - Real.logb 2 prevScale))
  else chg.targetScale

/-- The inner loop's break condition:
`i+1 < len(scaleChanges) && j >= scaleChanges[i+1].PointIndex`. -/
def boundReached (bound : Option ℕ) (j : ℕ) : Bool :=
  match bound with
  | some b => b ≤ j
  | none => false

/-- The inner loop (lines 344-365): starting at the directive's point index,
assign multipliers until the end of the series or the next directive's start
index. -/
noncomputable def applyChangeLoop (ts : ℕ → ℝ) (n : ℕ) (chg : ScaleChange ℝ) (prevScale : ℝ)
    (bound : Option ℕ) (m : ℕ → ℝ) (j : ℕ) : ℕ → ℝ :=
  if h : j < n then
    if boundReached bound j then m
    else applyChangeLoop ts n chg prevScale bound
      (fun k => if k = j then interpolatedScale prevScale chg (ts j - ts chg.pointIndex) else m k)
      (j + 1)
  else m
termination_by n - j
decreasing_by simp_wf; omega

/-- The outer loop (lines 335-366): process the remaining directives, with
`prev` the previously applied one. -/
noncomputable def applyChangesFrom (ts : ℕ → ℝ) (n : ℕ) :
    ScaleChange ℝ → List (ScaleChange ℝ) → (ℕ → ℝ) → (ℕ → ℝ)
  | _, [], m => m
  | prev, chg :: rest, m =>
      applyChangesFrom ts n chg rest
        (applyChangeLoop ts n chg prev.targetScale (rest.head?.map ScaleChange.pointIndex)
          m chg.pointIndex)

/-- The multiplier phase of `applyTrackAdjustments` (lines 322-366): fill the
slice with the initial scale and run the outer loop from `changeIdx`.  The
result is `none` exactly when the Go code would read `scaleChanges[-1]` — a
runtime panic, which happens whenever the change list is non-empty and its
first directive does not start at point index 0. -/
noncomputable def applyScaleChanges (ts : ℕ → ℝ) (n : ℕ) :
    List (ScaleChange ℝ) → Option (ℕ → ℝ)
  | [] => some fun _ => 1
  | c :: rest =>
      if c.pointIndex = 0 then
        some (applyChangesFrom ts n c rest (fun _ => c.targetScale))
      else none

lemma applyChangeLoop_lt (ts : ℕ → ℝ) (n : ℕ) (chg : ScaleChange ℝ) (prevScale : ℝ)
    (bound : Option ℕ) :
    ∀ (d j : ℕ) (m : ℕ → ℝ) (k : ℕ), n - j = d → k < j →
      (applyChangeLoop ts n chg prevScale bound m j) k = m k := by
  intro d
  induction d with
  | zero =>
      intro j m k hd hk
      rw [applyChangeLoop, dif_neg (by omega)]
  | succ d ih =>
      intro j m k hd hk
      rw [applyChangeLoop, dif_pos (by omega)]
      by_cases hb : boundReached bound j
      · rw [if_pos hb]
      · rw [if_neg hb]
        rw [ih (j + 1) _ k (by omega) (by omega)]
        rw [if_neg (by omega)]

lemma applyChangeLoop_write (ts : ℕ → ℝ) (n : ℕ) (chg : ScaleChange ℝ) (prevScale : ℝ)
    (bound : Option ℕ) :
    ∀ (d j : ℕ) (m : ℕ → ℝ) (k : ℕ), n - j = d → j ≤ k → k < n →
      (∀ b, bound = some b → k < b) →
      (applyChangeLoop ts n chg prevScale bound m j) k
        = interpolatedScale prevScale chg (ts k - ts chg.pointIndex) := by
  intro d
  induction d with
  | zero =>
      intro j m k hd hjk hkn _
      omega
  | succ d ih =>
      intro j m k hd hjk hkn hbound
      rw [applyChangeLoop, dif_pos (by omega)]
      have hb : boundReached bound j = false := by
        cases hopt : bound with
        | none => rfl
        | some b =>
            have := hbound b hopt
            simp [boundReached, hopt]
            omega
      rw [if_neg (by rw [hb]; exact Bool.false_ne_true)]
      rcases eq_or_lt_of_le hjk with heq | hlt
      · subst heq
        rw [applyChangeLoop_lt ts n chg prevScale bound d (j + 1) _ j (by omega) (by omega)]
        rw [if_pos rfl]
      · rw [ih (j + 1) _ k (by omega) (by omega) hkn hbound]

lemma applyChangesFrom_notMem (ts : ℕ → ℝ) (n : ℕ) :
    ∀ (rest : List (ScaleChange ℝ)) (prev : ScaleChange ℝ) (m : ℕ → ℝ) (k : ℕ),
      (∀ c ∈ rest, k < c.pointIndex) →
      (applyChangesFrom ts n prev rest m) k = m k := by
  intro rest
  induction rest with
  | nil => intro _ _ _ _; rfl
  | cons c rest' ih =>
      intro prev m k hall
      rw [applyChangesFrom]
      rw [ih c _ k (fun c' hc' => hall c' (List.mem_cons_of_mem c hc'))]
      exact applyChangeLoop_lt ts n c prev.targetScale _ (n - c.pointIndex) c.pointIndex m k rfl
        (hall c (List.mem_cons_self c rest'))

lemma applyChangesFrom_covered (ts : ℕ → ℝ) (n : ℕ) :
    ∀ (rest : List (ScaleChange ℝ)) (prev : ScaleChange ℝ) (m : ℕ → ℝ) (i' : ℕ)
      (pc chg : ScaleChange ℝ) (j : ℕ),
      (prev :: rest).Pairwise (fun a b => a.pointIndex < b.pointIndex) →
      rest[i']? = some chg →
      (prev :: rest)[i']? = some pc →
      chg.pointIndex ≤ j → j < n →
      (∀ nxt, rest[i' + 1]? = some nxt → j < nxt.pointIndex) →
      (applyChangesFrom ts n prev rest m) j
        = interpolatedScale pc.targetScale chg (ts j - ts chg.pointIndex) := by
  intro rest
  induction rest with
  | nil =>
      intro _ _ i' _ _ _ _ hchg
      simp at hchg
  | cons c rest' ih =>
      intro prev m i' pc chg j hpw hchg hpc hcov hjn hbound
      cases i' with
      | zero =>
          have hc : c = chg := by simpa using hchg
          have hp : prev = pc := by simpa using hpc
          subst hc
          subst hp
          have hlater : ∀ c' ∈ rest', j < c'.pointIndex := by
            cases rest' with
            | nil => intro c' hc'; cases hc'
            | cons h t =>
                intro c' hc'
                have hjh : j < h.pointIndex := hbound h (by simp)
                rcases List.mem_cons.mp hc' with h1 | h1
                · subst h1; exact hjh
                · have hpw' : (c :: h :: t).Pairwise (fun a b => a.pointIndex < b.pointIndex) :=
                    List.Pairwise.of_cons hpw
                  have hpw'' : (h :: t).Pairwise (fun a b => a.pointIndex < b.pointIndex) :=
                    List.Pairwise.of_cons hpw'
                  have := (List.pairwise_cons.mp hpw'').1 c' h1
                  omega
          rw [applyChangesFrom]
          rw [applyChangesFrom_notMem ts n rest' c _ j hlater]
          exact applyChangeLoop_write ts n c prev.targetScale
            (rest'.head?.map ScaleChange.pointIndex) (n - c.pointIndex) c.pointIndex m j rfl
            hcov hjn
            (fun b hb => by
              cases rest' with
              | nil => simp at hb
              | cons h t =>
                  have hhb : h.pointIndex = b := by simpa using hb
                  rw [← hhb]
                  exact hbound h (by simp))
      | succ p =>
          have hchg' : rest'[p]? = some chg := by simpa using hchg
          have hpc' : (c :: rest')[p]? = some pc := by simpa using hpc
          rw [applyChangesFrom]
          exact ih c _ p pc chg j (List.Pairwise.of_cons hpw) hchg' hpc' hcov hjn
            (fun nxt h => hbound nxt (by simpa using h))

/-- C3: for two consecutive resolved scale directives — the previous with
target scale `a`, the new one starting at point index `k` with target `b` and
transition duration `D` — every series point covered by the new directive
whose elapsed time `t` since point `k` satisfies `0 ≤ t < D` receives the
multiplier `2^(log2 a + (t/D)·(log2 b - log2 a))`, and every covered point
with `t ≥ D` receives exactly `b`.  (Directives are taken at strictly
increasing point indices, and the first directive starts at point 0 — the
only situation in which the Go apply loop runs at all without panicking.) -/
theorem applyTrackAdjustments_log2_interpolation (ts : ℕ → ℝ) (n : ℕ)
    (changes : List (ScaleChange ℝ)) (m : ℕ → ℝ) (i j : ℕ) (prevc chg : ScaleChange ℝ)
    (hres : applyScaleChanges ts n changes = some m)
    (hchain : List.Chain' (fun a b => a.pointIndex < b.pointIndex) changes)
    (hi : 1 ≤ i)
    (hchg : changes[i]? = some chg)
    (hprev : changes[i - 1]? = some prevc)
    (hcov1 : chg.pointIndex ≤ j) (hjn : j < n)
    (hcov2 : ∀ nxt, changes[i + 1]? = some nxt → j < nxt.pointIndex)
    (ht0 : 0 ≤ ts j - ts chg.pointIndex) :
    m j = if ts j - ts chg.pointIndex < chg.transitionDuration
          then Real.rpow 2 (Real.logb 2 prevc.targetScale
            + ((ts j - ts chg.pointIndex) / chg.transitionDuration)
              * (Real.logb 2 chg.targetScale - Real.logb 2 prevc.targetScale))
          else chg.targetScale := by
  haveI : IsTrans (ScaleChange ℝ) (fun a b => a.pointIndex < b.pointIndex) :=
    ⟨fun a b c hab hbc => lt_trans hab hbc⟩
  cases changes with
  | nil => simp at hchg
  | cons c0 rest =>
      rw [applyScaleChanges] at hres
      by_cases h0 : c0.pointIndex = 0
      · rw [if_pos h0] at hres
        have hm : m = applyChangesFrom ts n c0 rest (fun _ => c0.targetScale) :=
          (Option.some.injEq _ _ ▸ hres).symm
        obtain ⟨i', rfl⟩ : ∃ i', i = i' + 1 := ⟨i - 1, by omega⟩
        have hchg' : rest[i']? = some chg := by simpa using hchg
        have hpc : (c0 :: rest)[i']? = some prevc := by
          have : i' + 1 - 1 = i' := by omega
          rw [this] at hprev
          exact hprev
        have hpw : (c0 :: rest).Pairwise (fun a b => a.pointIndex < b.pointIndex) :=
          List.chain'_iff_pairwise.mp hchain
        have hval := applyChangesFrom_covered ts n rest c0 (fun _ => c0.targetScale) i'
          prevc chg j hpw hchg' hpc hcov1 hjn
          (fun nxt h => hcov2 nxt (by simpa using h))
        rw [hm, hval, interpolatedScale]
        by_cases hlt : ts j - ts chg.pointIndex < chg.transitionDuration
        · rw [if_pos hlt, if_pos hlt]
          have hD : 0 < chg.transitionDuration := lt_of_le_of_lt ht0 hlt
          show Real.rpow 2 (Real.logb 2 prevc.targetScale
              + (if (ts j - ts chg.pointIndex) / chg.transitionDuration < 0 then (0 : ℝ)
                 else (ts j - ts chg.pointIndex) / chg.transitionDuration)
                * (Real.logb 2 chg.targetScale - Real.logb 2 prevc.targetScale)) = _
          rw [if_neg (not_lt_of_le (div_nonneg ht0 (le_of_lt hD)))]
        · rw [if_neg hlt, if_neg hlt]
      · rw [if_neg h0] at hres
        exact absurd hres (by simp)

/-- Witness for C3: the spec's own example — directives `0 scale=1` and a
second directive at point 1 scaling to 2.0 over 10 s, with timestamps 5 s
apart.  The point 5 s into the transition receives `2^(0.5·log2 2) = √2` and
the point at 10 s receives exactly 2. -/
theorem applyTrackAdjustments_log2_interpolation_witness :
    applyScaleChanges (fun j => 5 * (j : ℝ)) 4
        [⟨0, 1, 20⟩, ⟨1, 2, 10⟩]
      = some (applyChangesFrom (fun j => 5 * (j : ℝ)) 4 ⟨0, 1, 20⟩ [⟨1, 2, 10⟩] (fun _ => 1)) ∧
    applyChangesFrom (fun j => 5 * (j : ℝ)) 4 ⟨0, 1, 20⟩ [⟨1, 2, 10⟩] (fun _ => 1) 2
      = Real.sqrt 2 ∧
    applyChangesFrom (fun j => 5 * (j : ℝ)) 4 ⟨0, 1, 20⟩ [⟨1, 2, 10⟩] (fun _ => 1) 3
      = 2 := by
  have hres : applyScaleChanges (fun j => 5 * (j : ℝ)) 4 [⟨0, 1, 20⟩, ⟨1, 2, 10⟩]
      = some (applyChangesFrom (fun j => 5 * (j : ℝ)) 4 ⟨0, 1, 20⟩ [⟨1, 2, 10⟩] (fun _ => 1)) :=
    rfl
  have hchain : List.Chain' (fun a b : ScaleChange ℝ => a.pointIndex < b.pointIndex)
      [⟨0, 1, 20⟩, ⟨1, 2, 10⟩] :=
    List.chain'_cons.mpr ⟨Nat.zero_lt_one, List.chain'_singleton _⟩
  refine ⟨hres, ?_, ?_⟩
  · have h := applyTrackAdjustments_log2_interpolation (fun j => 5 * (j : ℝ)) 4
      [⟨0, 1, 20⟩, ⟨1, 2, 10⟩] _ 1 2 ⟨0, 1, 20⟩ ⟨1, 2, 10⟩ hres hchain
      (le_refl 1) rfl rfl (by norm_num) (by norm_num)
      (fun nxt hx => Option.noConfusion
        (show (none : Option (ScaleChange ℝ)) = some nxt from hx))
      (by norm_num)
    rw [h, if_pos (by norm_num)]
    have hval : Real.logb 2 1 + ((5 * ((2 : ℕ) : ℝ) - 5 * ((1 : ℕ) : ℝ)) / 10)
        * (Real.logb 2 2 - Real.logb 2 1) = 1 / 2 := by
      rw [Real.logb_one, Real.logb_self_eq_one (by norm_num)]
      norm_num
    show Real.rpow 2 (Real.logb 2 1 + ((5 * ((2 : ℕ) : ℝ) - 5 * ((1 : ℕ) : ℝ)) / 10)
        * (Real.logb 2 2 - Real.logb 2 1)) = Real.sqrt 2
    rw [hval]
    show (2 : ℝ) ^ ((1 : ℝ) / 2) = Real.sqrt 2
    exact (Real.sqrt_eq_rpow 2).symm
  · have h := applyTrackAdjustments_log2_interpolation (fun j => 5 * (j : ℝ)) 4
      [⟨0, 1, 20⟩, ⟨1, 2, 10⟩] _ 1 3 ⟨0, 1, 20⟩ ⟨1, 2, 10⟩ hres hchain
      (le_refl 1) rfl rfl (by norm_num) (by norm_num)
      (fun nxt hx => Option.noConfusion
        (show (none : Option (ScaleChange ℝ)) = some nxt from hx))
      (by norm_num)
    rw [h, if_neg (by norm_num)]

/-! ## The preprocessing pipeline (`preprocessGpxPoints`, src/unnamed/part_000, lines 371-577)

The series is represented as a total index function `P` plus the length `n`;
each pass is a function of the fields the Go pass reads, in the order the
passes run.  The track-adjustment multiplier series (the result of
`applyTrackAdjustments`, modelled separately above) enters as the parameter
`mult`, abstracting the file read. -/

/-- `slopeMaxEleChange` (src/unnamed/part_003, line 17). -/
def slopeMaxEleChange : ℝ := 3

/-- `dynMapScaleMinSpeedKmh` (src/unnamed/part_003, line 19). -/
def dynMapScaleMinSpeedKmh : ℝ := 17

/-- `dynMapScaleMaxSpeedKmh` (src/unnamed/part_003, line 20). -/
def dynMapScaleMaxSpeedKmh : ℝ := 26

/-- Elevation despiking (lines 378-382): a change of more than
`slopeMaxEleChange` against the previous (already despiked) elevation is
replaced by the previous value. -/
noncomputable def despikedEle (P : ℕ → Point ℝ) : ℕ → ℝ
  | 0 => (P 0).ele
  | i + 1 =>
      if |(P (i + 1)).ele - despikedEle P i| > slopeMaxEleChange
      then despikedEle P i else (P (i + 1)).ele

/-- Cumulative distance (lines 384-385): running sum of `haversine` over
consecutive points; index 0 keeps the raw point's `Distance` field. -/
noncomputable def cumDistance (P : ℕ → Point ℝ) : ℕ → ℝ
  | 0 => (P 0).distance
  | i + 1 => cumDistance P i + haversine (P i) (P (i + 1))

/-- Centered-window speed (lines 387-409): distance over time across a window
of roughly ±2 samples, in km/h; index 0 keeps the raw point's `Speed`. -/
noncomputable def windowSpeed (P : ℕ → Point ℝ) (n : ℕ) : ℕ → ℝ
  | 0 => (P 0).speed
  | i + 1 =>
      let ws := i + 1 - 2
      let we := min (i + 1 + 2) (n - 1)
      let totalDist := ∑ j ∈ Finset.Ico ws we, haversine (P j) (P (j + 1))
      let totalTime := ∑ j ∈ Finset.Ico ws we, ((P (j + 1)).timestamp - (P j).timestamp)
      if 0 < totalTime then totalDist * 3600 / totalTime
      else if 0 < i + 1 then windowSpeed P n i else 0

/-- The `AvgSpeed` value of point `i`: entry `i` of the two-pointer sweep. -/
noncomputable def avgSpeedF (P : ℕ → Point ℝ) (n : ℕ) (i : ℕ) : ℝ :=
  (avgSpeedSweep (fun j => (P j).timestamp) (windowSpeed P n) n).getD i 0

/-- Dynamic map scale from average speed (lines 447-461). -/
noncomputable def speedMapScale (dynMapScale : Bool) (avgSpeed : ℝ) : ℝ :=
  if dynMapScale then
    (if avgSpeed > dynMapScaleMinSpeedKmh then
      1 + (let factor := (avgSpeed - dynMapScaleMinSpeedKmh)
              / (dynMapScaleMaxSpeedKmh - dynMapScaleMinSpeedKmh)
           if factor > 1 then 1 else factor)
     else 1)
  else 1

/-- Per-segment bearing (lines 463-468): each point takes the bearing to its
successor; the last point copies the previous one's. -/
noncomputable def rawBearing (P : ℕ → Point ℝ) (n : ℕ) (i : ℕ) : ℝ :=
  if i < n - 1 then bearing (P i) (P (i + 1)) else bearing (P (n - 2)) (P (n - 1))

/-- Backward search for the slope window start (lines 501-508): the nearest
index at or below `i` whose cumulative distance is at least 25 m behind. -/
noncomputable def slopeStartIdx (dist : ℕ → ℝ) (di : ℝ) : ℕ → Option ℕ
  | 0 => if |di - dist 0| * 1000 ≥ 25 then some 0 else none
  | j + 1 => if |di - dist (j + 1)| * 1000 ≥ 25 then some (j + 1) else slopeStartIdx dist di j

/-- Forward search for the slope window end (lines 510-517). -/
noncomputable def slopeEndIdx (dist : ℕ → ℝ) (n : ℕ) (di : ℝ) (j : ℕ) : Option ℕ :=
  if h : j < n then
    if |dist j - di| * 1000 ≥ 25 then some j else slopeEndIdx dist n di (j + 1)
  else none
termination_by n - j
decreasing_by simp_wf; omega

/-- Slope over the ±25 m window (lines 499-537), carrying the previous value
when no full window exists. -/
noncomputable def slopeF (dist ele : ℕ → ℝ) (n : ℕ) : ℕ → ℝ
  | 0 =>
      match slopeStartIdx dist (dist 0) 0, slopeEndIdx dist n (dist 0) 0 with
      | some s, some e =>
          if 1 < (dist e - dist s) * 1000
          then ((ele e - ele s) / ((dist e - dist s) * 1000)) * 100 else 0
      | _, _ => 0
  | i + 1 =>
      match slopeStartIdx dist (dist (i + 1)) (i + 1), slopeEndIdx dist n (dist (i + 1)) (i + 1) with
      | some s, some e =>
          if 1 < (dist e - dist s) * 1000
          then ((ele e - ele s) / ((dist e - dist s) * 1000)) * 100 else 0
      | _, _ => slopeF dist ele n i

/-- Trailing 5-sample average of the slope (lines 539-560). -/
noncomputable def smoothedSlopeF (slope : ℕ → ℝ) (i : ℕ) : ℝ :=
  let start := i - 4
  let total := ∑ j ∈ Finset.Icc start i, slope j
  let count := i - start + 1
  if 0 < count then total / (count : ℝ)
  else if h : 0 < i then smoothedSlopeF slope (i - 1) else 0
termination_by i
decreasing_by simp_wf; omega

/-- One fully preprocessed point (the body of `preprocessGpxPoints` for
index `i`). -/
noncomputable def preprocessPoint (dynMapScale : Bool) (mapZoom : ℤ) (mult : ℕ → ℝ)
    (P : ℕ → Point ℝ) (n : ℕ) (i : ℕ) : Point ℝ :=
  let scale := speedMapScale dynMapScale (avgSpeedF P n i) * mult i
  { lat := (P i).lat
    lon := (P i).lon
    ele := despikedEle P i
    speed := windowSpeed P n i
    slope := slopeF (cumDistance P) (despikedEle P) n i
    distance := cumDistance P i
    smoothedSlope := smoothedSlopeF (slopeF (cumDistance P) (despikedEle P) n) i
    avgSpeed := avgSpeedF P n i
    mapScale := scale
    residualMapScale := residualMapScaleOf scale
    bearing := smoothedBearing n (rawBearing P n) i
    timestamp := (P i).timestamp
    tileZoom := tileZoomOf mapZoom scale }

/-- `preprocessGpxPoints`: the identity on tracks of fewer than 2 points,
otherwise the per-index assembly of all passes. -/
noncomputable def preprocessGpxPoints (dynMapScale : Bool) (mapZoom : ℤ) (mult : ℕ → ℝ)
    (pts : List (Point ℝ)) : List (Point ℝ) :=
  if pts.length < 2 then pts
  else (List.range pts.length).map
    (preprocessPoint dynMapScale mapZoom mult (fun i => pts.getD i default) pts.length)

lemma getD_range_map {B : Type} (f : ℕ → B) (n i : ℕ) (hi : i < n) (dflt : B) :
    ((List.range n).map f).getD i dflt = f i := by
  rw [List.getD_eq_getElem?_getD, List.getElem?_map, List.getElem?_range hi]
  rfl

lemma preprocess_getD (dyn : Bool) (mapZoom : ℤ) (mult : ℕ → ℝ) (pts : List (Point ℝ))
    (h2 : 2 ≤ pts.length) (i : ℕ) (hi : i < pts.length) :
    (preprocessGpxPoints dyn mapZoom mult pts).getD i default
      = preprocessPoint dyn mapZoom mult (fun k => pts.getD k default) pts.length i := by
  rw [preprocessGpxPoints, if_neg (by omega)]
  exact getD_range_map _ pts.length i hi default

lemma cumDistance_eq_sum (P : ℕ → Point ℝ) (h0 : (P 0).distance = 0) :
    ∀ i, cumDistance P i = ∑ k ∈ Finset.range i, haversine (P k) (P (k + 1)) := by
  intro i
  induction i with
  | zero => simpa [cumDistance] using h0
  | succ i ih => rw [cumDistance, ih, Finset.sum_range_succ]

/-- C7: for every input track of at least 2 points whose raw index-0
`Distance` field is zero (as `parseGpx` produces), the `Distance` field of
the preprocessed series is 0 at index 0, equals at every index `i` the sum of
the pairwise haversine distances of consecutive points up to `i`, and is
non-decreasing in the index. -/
theorem preprocess_distance_cumulative (dyn : Bool) (mapZoom : ℤ) (mult : ℕ → ℝ)
    (pts : List (Point ℝ)) (h2 : 2 ≤ pts.length)
    (h0 : (pts.getD 0 default).distance = 0) :
    ((preprocessGpxPoints dyn mapZoom mult pts).getD 0 default).distance = 0 ∧
    (∀ i, i < pts.length →
      ((preprocessGpxPoints dyn mapZoom mult pts).getD i default).distance
        = ∑ k ∈ Finset.range i, haversine (pts.getD k default) (pts.getD (k + 1) default)) ∧
    (∀ i j, i ≤ j → j < pts.length →
      ((preprocessGpxPoints dyn mapZoom mult pts).getD i default).distance
        ≤ ((preprocessGpxPoints dyn mapZoom mult pts).getD j default).distance) := by
  have hsum : ∀ i, i < pts.length →
      ((preprocessGpxPoints dyn mapZoom mult pts).getD i default).distance
        = ∑ k ∈ Finset.range i, haversine (pts.getD k default) (pts.getD (k + 1) default) := by
    intro i hi
    rw [preprocess_getD dyn mapZoom mult pts h2 i hi]
    show cumDistance (fun k => pts.getD k default) i = _
    exact cumDistance_eq_sum (fun k => pts.getD k default) h0 i
  refine ⟨?_, hsum, ?_⟩
  · rw [hsum 0 (by omega)]
    simp
  · intro i j hij hj
    rw [hsum i (by omega), hsum j hj]
    exact Finset.sum_le_sum_of_subset_of_nonneg
      (Finset.range_subset.mpr hij) (fun k _ _ => haversine_nonneg _ _)

/-- Witness for C7 on a concrete two-point track of raw (all-zero) points. -/
theorem preprocess_distance_cumulative_witness :
    (2 ≤ ([default, default] : List (Point ℝ)).length ∧
      (([default, default] : List (Point ℝ)).getD 0 default).distance = 0) ∧
    ((preprocessGpxPoints false 15 (fun _ => 1) [default, default]).getD 0 default).distance
      = 0 := by
  refine ⟨⟨by simp, rfl⟩, ?_⟩
  exact (preprocess_distance_cumulative false 15 (fun _ => 1) [default, default]
    (by simp) rfl).1

/-- C2: for every point of the preprocessed series, writing `s` for its
final continuous map scale and `d = ⌊log2 s⌋` when `s > 1` (else 0): the
stored `ResidualMapScale` equals `s / 2^d` — so `ResidualMapScale · 2^d = s`
— and the point's `TileZoom` equals the configured base zoom minus `d`,
clamped below at 0. -/
theorem preprocess_zoom_residual (dyn : Bool) (mapZoom : ℤ) (mult : ℕ → ℝ)
    (pts : List (Point ℝ)) (h2 : 2 ≤ pts.length) (i : ℕ) (hi : i < pts.length) :
    ((preprocessGpxPoints dyn mapZoom mult pts).getD i default).residualMapScale
        * (2 : ℝ) ^ (if 1 < ((preprocessGpxPoints dyn mapZoom mult pts).getD i default).mapScale
            then ⌊Real.logb 2 ((preprocessGpxPoints dyn mapZoom mult pts).getD i default).mapScale⌋
            else 0)
      = ((preprocessGpxPoints dyn mapZoom mult pts).getD i default).mapScale ∧
    ((preprocessGpxPoints dyn mapZoom mult pts).getD i default).residualMapScale
      = ((preprocessGpxPoints dyn mapZoom mult pts).getD i default).mapScale
        / (2 : ℝ) ^ (if 1 < ((preprocessGpxPoints dyn mapZoom mult pts).getD i default).mapScale
            then ⌊Real.logb 2 ((preprocessGpxPoints dyn mapZoom mult pts).getD i default).mapScale⌋
            else 0) ∧
    ((preprocessGpxPoints dyn mapZoom mult pts).getD i default).tileZoom
      = max 0 (mapZoom
          - (if 1 < ((preprocessGpxPoints dyn mapZoom mult pts).getD i default).mapScale
             then ⌊Real.logb 2 ((preprocessGpxPoints dyn mapZoom mult pts).getD i default).mapScale⌋
             else 0)) := by
  rw [preprocess_getD dyn mapZoom mult pts h2 i hi]
  exact zoom_decomposition mapZoom
    (speedMapScale dyn (avgSpeedF (fun k => pts.getD k default) pts.length i) * mult i)

/-- Witness for C2 at index 0 of a concrete two-point track. -/
theorem preprocess_zoom_residual_witness :
    (2 ≤ ([default, default] : List (Point ℝ)).length ∧
      0 < ([default, default] : List (Point ℝ)).length) ∧
    ((preprocessGpxPoints false 15 (fun _ => 1) [default, default]).getD 0 default).residualMapScale
        * (2 : ℝ) ^ (if 1 < ((preprocessGpxPoints false 15 (fun _ => 1)
              [default, default]).getD 0 default).mapScale
            then ⌊Real.logb 2 ((preprocessGpxPoints false 15 (fun _ => 1)
              [default, default]).getD 0 default).mapScale⌋
            else 0)
      = ((preprocessGpxPoints false 15 (fun _ => 1) [default, default]).getD 0 default).mapScale := by
  refine ⟨⟨by simp, by simp⟩, ?_⟩
  exact (preprocess_zoom_residual false 15 (fun _ => 1) [default, default] (by simp) 0 (by simp)).1

/-- C9: `preprocessGpxPoints` returns a series of exactly the input's length
in which every point keeps the corresponding raw point's `Lat`, `Lon` and
`Timestamp`; only `Ele` (despiking) and the derived fields are recomputed.
(The Go function copies the slice before writing, so the input is never
mutated; the model is a pure function of the input.) -/
theorem preprocessGpxPoints_frame (dyn : Bool) (mapZoom : ℤ) (mult : ℕ → ℝ)
    (pts : List (Point ℝ)) :
    (preprocessGpxPoints dyn mapZoom mult pts).length = pts.length ∧
    ∀ i, i < pts.length →
      ((preprocessGpxPoints dyn mapZoom mult pts).getD i default).lat
          = (pts.getD i default).lat ∧
      ((preprocessGpxPoints dyn mapZoom mult pts).getD i default).lon
          = (pts.getD i default).lon ∧
      ((preprocessGpxPoints dyn mapZoom mult pts).getD i default).timestamp
          = (pts.getD i default).timestamp := by
  by_cases h : pts.length < 2
  · rw [preprocessGpxPoints, if_pos h]
    exact ⟨rfl, fun i hi => ⟨rfl, rfl, rfl⟩⟩
  · constructor
    · rw [preprocessGpxPoints, if_neg h]
      rw [List.length_map, List.length_range]
    · intro i hi
      rw [preprocess_getD dyn mapZoom mult pts (by omega) i hi]
      exact ⟨rfl, rfl, rfl⟩

/-- Witness for C9 on a concrete two-point track. -/
theorem preprocessGpxPoints_frame_witness :
    (preprocessGpxPoints false 15 (fun _ => 1) [default, default]).length
      = ([default, default] : List (Point ℝ)).length ∧
    0 < ([default, default] : List (Point ℝ)).length ∧
    ((preprocessGpxPoints false 15 (fun _ => 1) [default, default]).getD 0 default).lat
      = (([default, default] : List (Point ℝ)).getD 0 default).lat := by
  refine ⟨(preprocessGpxPoints_frame false 15 (fun _ => 1) [default, default]).1, by simp, ?_⟩
  exact ((preprocessGpxPoints_frame false 15 (fun _ => 1) [default, default]).2 0 (by simp)).1

/-! ## C8: `parseTrackAdjustmentFile` and the resolution phase of `applyTrackAdjustments`

The adjustment file is a string of newline-separated directives; Go's
`strconv.ParseFloat` is an external collaborator, abstracted as a parameter
`pf : String → Option K` (`none` models a parse error), and the file read
itself (an I/O step) is abstracted by passing the content.  `strings.Fields`
splits on whitespace runs (`goFields`), `strings.TrimPrefix` is `String.drop`
of the prefix length after a `startsWith` check. -/

/-- A parsed adjustment directive (struct `TrackAdjustmentSpec`). -/
structure TrackAdjustmentSpec (K : Type) where
  pointSpec : String
  scale : K
  duration : Option K

/-- `strings.Fields`: split on whitespace, dropping empty fields. -/
def goFields (s : String) : List String :=
  (s.split (fun c => c.isWhitespace)).filter (fun t => t ≠ "")

/-- The parameter loop of `parseTrackAdjustmentFile` (lines 219-239) over
`parts[1:]`, carrying the scale, optional duration and the `scaleFound`
flag. -/
def parseAdjustmentParams (pf : String → Option K) :
    List String → K → Option K → Bool → Except String (K × Option K × Bool)
  | [], scale, dur, found => Except.ok (scale, dur, found)
  | p :: rest, scale, dur, found =>
      if p.startsWith "scale=" then
        match pf (p.drop 6) with
        | some v => parseAdjustmentParams pf rest v dur true
        | none => Except.error "invalid scale value"
      else if p.startsWith "duration=" then
        match pf (p.drop 9) with
        | some v => parseAdjustmentParams pf rest scale (some v) found
        | none => Except.error "invalid duration value"
      else Except.error "unknown parameter"

/-- The line loop of `parseTrackAdjustmentFile` (lines 205-246): trim each
line, skip empty ones, require at least two fields, parse the parameters and
require a scale. -/
def parseAdjustmentLines (pf : String → Option K) :
    List String → Except String (List (TrackAdjustmentSpec K))
  | [] => Except.ok []
  | line :: rest =>
      let l := line.trim
      if l = "" then parseAdjustmentLines pf rest
      else
        let parts := goFields l
        if parts.length < 2 then Except.error "invalid format"
        else
          match parseAdjustmentParams pf parts.tail 0 none false with
          | Except.error e => Except.error e
          | Except.ok (scale, dur, found) =>
              if found then
                match parseAdjustmentLines pf rest with
                | Except.error e => Except.error e
                | Except.ok specs =>
                    Except.ok ({ pointSpec := parts.headD "", scale := scale,
                                 duration := dur } :: specs)
              else Except.error "scale parameter not found"

/-- `parseTrackAdjustmentFile` (lines 191-249) on the file's content. -/
def parseTrackAdjustmentFile (pf : String → Option K) (content : String) :
    Except String (List (TrackAdjustmentSpec K)) :=
  parseAdjustmentLines pf (content.splitOn "\n")

/-- First index in `[j, n)` satisfying `cond` (the linear scans of the
resolution phase and of `parseCutBoundary`). -/
def firstIdxFrom (cond : ℕ → Bool) (n : ℕ) (j : ℕ) : Option ℕ :=
  if h : j < n then
    if cond j then some j else firstIdxFrom cond n (j + 1)
  else none
termination_by n - j
decreasing_by simp_wf; omega

/-- Resolution of one directive's point locator (`applyTrackAdjustments`,
lines 274-313): `"0"` is the first point, a `km`/`s` suffix searches by
cumulative distance / elapsed time (cumulative-relative with a `+`), an
unrecognized locator stays at index `-1` (`none`).  The returned pair is the
updated `(lastDistance, lastTime)` state. -/
def resolveLocator (pf : String → Option K) (dist ts : ℕ → K) (n : ℕ)
    (lastD lastT : K) (locator : String) : Except String ((K × K) × Option ℕ) :=
  if locator = "0" then Except.ok ((lastD, lastT), some 0)
  else if locator.endsWith "km" then
    match pf ((if locator.startsWith "+" then locator.drop 1 else locator).dropRight 2) with
    | none => Except.error "invalid distance spec"
    | some v =>
        let d := if locator.startsWith "+" then v + lastD else v
        Except.ok ((d, lastT), firstIdxFrom (fun i => decide (d ≤ dist i)) n 0)
  else if locator.endsWith "s" then
    match pf ((if locator.startsWith "+" then locator.drop 1 else locator).dropRight 1) with
    | none => Except.error "invalid time spec"
    | some v =>
        let t := if locator.startsWith "+" then v + lastT else v
        Except.ok ((lastD, t), firstIdxFrom (fun i => decide (ts 0 + t ≤ ts i)) n 0)
  else Except.ok ((lastD, lastT), none)

/-- The resolution loop of `applyTrackAdjustments` (lines 262-320): resolve
each directive in order, threading the relative-locator state; directives
whose locator resolves to no point are skipped (the Go code logs a warning). -/
def resolveSpecs (pf : String → Option K) (dist ts : ℕ → K) (n : ℕ) :
    List (TrackAdjustmentSpec K) → K → K → Except String (List (ScaleChange K))
  | [], _, _ => Except.ok []
  | spec :: rest, lastD, lastT =>
      let transitionDuration : K :=
        match spec.duration with
        | some d => d
        | none => 20
      match resolveLocator pf dist ts n lastD lastT spec.pointSpec with
      | Except.error e => Except.error e
      | Except.ok (st', idx) =>
          match resolveSpecs pf dist ts n rest st'.1 st'.2 with
          | Except.error e => Except.error e
          | Except.ok changes =>
              match idx with
              | some i => Except.ok (⟨i, spec.scale, transitionDuration⟩ :: changes)
              | none => Except.ok changes

/-- `applyTrackAdjustments` (lines 251-368) over ℝ-valued series data: the
empty spec list returns all-ones multipliers before touching the points;
otherwise resolution runs, and the apply phase may hit the Go
`scaleChanges[-1]` panic (the inner `Option` is `none`). -/
noncomputable def applyTrackAdjustmentsGo (pf : String → Option ℝ) (dist ts : ℕ → ℝ) (n : ℕ)
    (specs : List (TrackAdjustmentSpec ℝ)) : Except String (Option (ℕ → ℝ)) :=
  if specs.isEmpty then Except.ok (some fun _ => 1)
  else
    match resolveSpecs pf dist ts n specs 0 0 with
    | Except.error e => Except.error e
    | Except.ok changes => Except.ok (applyScaleChanges ts n changes)

/-- Modelled from the spec: the claim's description of a malformed parameter
(the value of a `scale=`/`duration=` key does not parse, or the key is
neither). -/
def badPart (pf : String → Option K) (p : String) : Prop :=
  (p.startsWith "scale=" = true ∧ pf (p.drop 6) = none) ∨
  (p.startsWith "scale=" = false ∧ p.startsWith "duration=" = true ∧ pf (p.drop 9) = none) ∨
  (p.startsWith "scale=" = false ∧ p.startsWith "duration=" = false)

/-- Modelled from the spec: the claim's description of a bad directive line:
fewer than two fields, a malformed parameter, or no `scale=` parameter. -/
def badLine (pf : String → Option K) (line : String) : Prop :=
  (goFields line).length < 2 ∨
  (∃ p ∈ (goFields line).tail, badPart pf p) ∨
  (¬∃ p ∈ (goFields line).tail, p.startsWith "scale=" = true)

/-- A locator the resolution phase can process without a fatal error:
`"0"`, a parsable `km`/`s` form, or an unrecognized shape (which is merely
skipped). -/
def wellFormedLocator (pf : String → Option K) (locator : String) : Prop :=
  locator = "0" ∨
  (locator.endsWith "km" = true ∧
    pf ((if locator.startsWith "+" then locator.drop 1 else locator).dropRight 2) ≠ none) ∨
  (locator.endsWith "km" = false ∧ locator.endsWith "s" = true ∧
    pf ((if locator.startsWith "+" then locator.drop 1 else locator).dropRight 1) ≠ none) ∨
  (locator.endsWith "km" = false ∧ locator.endsWith "s" = false)

lemma parseAdjustmentParams_err (pf : String → Option K) :
    ∀ (ps : List String) (scale : K) (dur : Option K) (found : Bool),
      (∃ p ∈ ps, badPart pf p) →
      (parseAdjustmentParams pf ps scale dur found).isOk = false := by
  intro ps
  induction ps with
  | nil =>
      intro _ _ _ h
      simp at h
  | cons p rest ih =>
      intro scale dur found h
      rw [parseAdjustmentParams]
      by_cases hs : p.startsWith "scale=" = true
      · rw [if_pos hs]
        cases hpf : pf (p.drop 6) with
        | none => rfl
        | some v =>
            apply ih
            rcases h with ⟨q, hq, hbad⟩
            rcases List.mem_cons.mp hq with rfl | hq'
            · rcases hbad with ⟨-, h2⟩ | ⟨h1, -, -⟩ | ⟨h1, -⟩
              · rw [hpf] at h2; cases h2
              · rw [hs] at h1; cases h1
              · rw [hs] at h1; cases h1
            · exact ⟨q, hq', hbad⟩
      · have hs' : p.startsWith "scale=" = false := by
          revert hs; cases p.startsWith "scale=" <;> simp
        rw [if_neg hs]
        by_cases hd : p.startsWith "duration=" = true
        · rw [if_pos hd]
          cases hpf : pf (p.drop 9) with
          | none => rfl
          | some v =>
              apply ih
              rcases h with ⟨q, hq, hbad⟩
              rcases List.mem_cons.mp hq with rfl | hq'
              · rcases hbad with ⟨h1, -⟩ | ⟨-, -, h3⟩ | ⟨-, h2⟩
                · rw [hs'] at h1; cases h1
                · rw [hpf] at h3; cases h3
                · rw [hd] at h2; cases h2
              · exact ⟨q, hq', hbad⟩
        · rw [if_neg hd]
          rfl

lemma parseAdjustmentParams_ok (pf : String → Option K) :
    ∀ (ps : List String) (scale : K) (dur : Option K) (found : Bool),
      (∀ p ∈ ps, ¬badPart pf p) →
      ∃ s d, parseAdjustmentParams pf ps scale dur found
        = Except.ok (s, d, found || ps.any (fun p => p.startsWith "scale=")) := by
  intro ps
  induction ps with
  | nil =>
      intro scale dur found _
      exact ⟨scale, dur, by rw [parseAdjustmentParams]; rw [List.any_nil, Bool.or_false]⟩
  | cons p rest ih =>
      intro scale dur found h
      have hp := h p (List.mem_cons_self p rest)
      rw [parseAdjustmentParams]
      by_cases hs : p.startsWith "scale=" = true
      · rw [if_pos hs]
        cases hpf : pf (p.drop 6) with
        | none => exact absurd (Or.inl ⟨hs, hpf⟩) hp
        | some v =>
            obtain ⟨s, d, hres⟩ := ih v dur true (fun q hq => h q (List.mem_cons_of_mem p hq))
            refine ⟨s, d, ?_⟩
            show parseAdjustmentParams pf rest v dur true = _
            rw [hres]
            have hany : (p :: rest).any (fun p => p.startsWith "scale=") = true := by
              rw [List.any_cons, hs, Bool.true_or]
            rw [hany, Bool.or_true, Bool.true_or]
      · have hs' : p.startsWith "scale=" = false := by
          revert hs; cases p.startsWith "scale=" <;> simp
        rw [if_neg hs]
        by_cases hd : p.startsWith "duration=" = true
        · rw [if_pos hd]
          cases hpf : pf (p.drop 9) with
          | none => exact absurd (Or.inr (Or.inl ⟨hs', hd, hpf⟩)) hp
          | some v =>
              obtain ⟨s, d, hres⟩ := ih scale (some v) found
                (fun q hq => h q (List.mem_cons_of_mem p hq))
              refine ⟨s, d, ?_⟩
              show parseAdjustmentParams pf rest scale (some v) found = _
              rw [hres]
              rw [List.any_cons, hs', Bool.false_or]
        · have hd' : p.startsWith "duration=" = false := by
            revert hd; cases p.startsWith "duration=" <;> simp
          exact absurd (Or.inr (Or.inr ⟨hs', hd'⟩)) hp

lemma parseAdjustmentLines_err_iff (pf : String → Option K) :
    ∀ lines : List String,
      (parseAdjustmentLines pf lines).isOk = false
        ↔ ∃ line ∈ lines, ¬(line.trim = "") ∧ badLine pf line.trim := by
  intro lines
  induction lines with
  | nil =>
      rw [parseAdjustmentLines]
      simp [Except.isOk, Except.toBool]
  | cons line rest ih =>
      rw [parseAdjustmentLines]
      by_cases he : line.trim = ""
      · rw [if_pos he, ih]
        constructor
        · rintro ⟨l, hl, h⟩
          exact ⟨l, List.mem_cons_of_mem _ hl, h⟩
        · rintro ⟨l, hl, hne, hbad⟩
          rcases List.mem_cons.mp hl with rfl | hl'
          · exact absurd he hne
          · exact ⟨l, hl', hne, hbad⟩
      · rw [if_neg he]
        by_cases hlen : (goFields line.trim).length < 2
        · rw [if_pos hlen]
          constructor
          · intro _
            exact ⟨line, List.mem_cons_self _ _, he, Or.inl hlen⟩
          · intro _
            rfl
        · rw [if_neg hlen]
          by_cases hbadp : ∃ p ∈ (goFields line.trim).tail, badPart pf p
          · have herr := parseAdjustmentParams_err pf (goFields line.trim).tail 0 none false hbadp
            cases hres : parseAdjustmentParams pf (goFields line.trim).tail 0 none false with
            | ok v =>
                rw [hres] at herr
                cases herr
            | error e =>
                constructor
                · intro _
                  exact ⟨line, List.mem_cons_self _ _, he, Or.inr (Or.inl hbadp)⟩
                · intro _
                  rfl
          · push_neg at hbadp
            obtain ⟨s, d, hok⟩ := parseAdjustmentParams_ok pf (goFields line.trim).tail
              0 none false hbadp
            rw [Bool.false_or] at hok
            rw [hok]
            by_cases hany : (goFields line.trim).tail.any (fun p => p.startsWith "scale=") = true
            · rw [hany]
              have hexists : ∃ p ∈ (goFields line.trim).tail, p.startsWith "scale=" = true :=
                List.any_eq_true.mp hany
              have hline_good : ¬badLine pf line.trim := by
                rw [badLine]
                push_neg
                exact ⟨by omega, fun p hp => hbadp p hp, hexists⟩
              cases hrest : parseAdjustmentLines pf rest with
              | error e =>
                  constructor
                  · intro _
                    have hr : (parseAdjustmentLines pf rest).isOk = false := by
                      rw [hrest]
                      rfl
                    obtain ⟨l, hl, h⟩ := ih.mp hr
                    exact ⟨l, List.mem_cons_of_mem _ hl, h⟩
                  · intro _
                    rfl
              | ok specs =>
                  constructor
                  · intro hcon
                    exact Bool.noConfusion hcon
                  · rintro ⟨l, hl, hne, hbad⟩
                    rcases List.mem_cons.mp hl with rfl | hl'
                    · exact absurd hbad hline_good
                    · have hr := ih.mpr ⟨l, hl', hne, hbad⟩
                      rw [hrest] at hr
                      exact Bool.noConfusion hr
            · have hany' : (goFields line.trim).tail.any (fun p => p.startsWith "scale=") = false := by
                revert hany
                cases (goFields line.trim).tail.any (fun p => p.startsWith "scale=") <;> simp
              rw [hany']
              constructor
              · intro _
                refine ⟨line, List.mem_cons_self _ _, he, Or.inr (Or.inr ?_)⟩
                intro hex
                rw [← List.any_eq_true] at hex
                rw [hany'] at hex
                cases hex
              · intro _
                rfl

lemma resolveLocator_wellFormed_ok (pf : String → Option K) (dist ts : ℕ → K)
    (n : ℕ) (lastD lastT : K) (locator : String)
    (h : wellFormedLocator pf locator) :
    (resolveLocator pf dist ts n lastD lastT locator).isOk = true := by
  unfold resolveLocator
  rcases h with h0 | ⟨hkm, hpf⟩ | ⟨hkm, hs, hpf⟩ | ⟨hkm, hs⟩
  · rw [if_pos h0]
    rfl
  · by_cases h0 : locator = "0"
    · rw [if_pos h0]
      rfl
    · rw [if_neg h0, if_pos hkm]
      cases hres : pf ((if locator.startsWith "+" then locator.drop 1
          else locator).dropRight 2) with
      | none => exact absurd hres hpf
      | some v => rfl
  · by_cases h0 : locator = "0"
    · rw [if_pos h0]
      rfl
    · rw [if_neg h0, if_neg (by simp [hkm]), if_pos hs]
      cases hres : pf ((if locator.startsWith "+" then locator.drop 1
          else locator).dropRight 1) with
      | none => exact absurd hres hpf
      | some v => rfl
  · by_cases h0 : locator = "0"
    · rw [if_pos h0]
      rfl
    · rw [if_neg h0, if_neg (by simp [hkm]), if_neg (by simp [hs])]
      rfl

lemma resolveSpecs_skip (pf : String → Option K) (dist ts : ℕ → K) (n : ℕ)
    (spec : TrackAdjustmentSpec K) (rest : List (TrackAdjustmentSpec K))
    (lastD lastT : K) (st' : K × K)
    (hres : resolveLocator pf dist ts n lastD lastT spec.pointSpec =
      Except.ok (st', none)) :
    resolveSpecs pf dist ts n (spec :: rest) lastD lastT =
      resolveSpecs pf dist ts n rest st'.1 st'.2 := by
  cases hrest : resolveSpecs pf dist ts n rest st'.1 st'.2 with
  | error e =>
      rw [resolveSpecs]
      simp only [hres, hrest]
  | ok changes =>
      rw [resolveSpecs]
      simp only [hres, hrest]

lemma resolveSpecs_wellFormed_ok (pf : String → Option K) (dist ts : ℕ → K)
    (n : ℕ) :
    ∀ (specs : List (TrackAdjustmentSpec K)) (lastD lastT : K),
      (∀ spec ∈ specs, wellFormedLocator pf spec.pointSpec) →
      (resolveSpecs pf dist ts n specs lastD lastT).isOk = true := by
  intro specs
  induction specs with
  | nil =>
      intro _ _ _
      rfl
  | cons spec rest ih =>
      intro lastD lastT h
      have hok := resolveLocator_wellFormed_ok pf dist ts n lastD lastT
        spec.pointSpec (h spec (List.mem_cons_self _ _))
      cases hres : resolveLocator pf dist ts n lastD lastT spec.pointSpec with
      | error e =>
          rw [hres] at hok
          exact Bool.noConfusion hok
      | ok p =>
          obtain ⟨st', idx⟩ := p
          have ihr := ih st'.1 st'.2 (fun s hs => h s (List.mem_cons_of_mem _ hs))
          cases hrest : resolveSpecs pf dist ts n rest st'.1 st'.2 with
          | error e =>
              rw [hrest] at ihr
              exact Bool.noConfusion ihr
          | ok changes =>
              rw [resolveSpecs]
              simp only [hres, hrest]
              cases idx <;> rfl

/-- C8: `parseTrackAdjustmentFile` fails exactly when some non-empty line of
the file has fewer than two whitespace-separated fields, a `scale=` or
`duration=` value that does not parse, an unknown parameter, or no `scale=`
parameter; a well-formed directive whose locator resolves to no point is not
an error: the resolution loop of `applyTrackAdjustments` skips it (the
resolved-change list is the one obtained without the directive) and, when
every locator is well formed, `applyTrackAdjustments` returns without
error. -/
theorem parseTrackAdjustmentFile_error_iff (pf : String → Option K)
    (content : String) (pfR : String → Option ℝ) (dist ts : ℕ → ℝ) (n : ℕ)
    (specsR : List (TrackAdjustmentSpec ℝ))
    (hwf : ∀ spec ∈ specsR, wellFormedLocator pfR spec.pointSpec) :
    ((parseTrackAdjustmentFile pf content).isOk = false ↔
      ∃ line ∈ content.splitOn "\n", ¬(line.trim = "") ∧ badLine pf line.trim) ∧
    (applyTrackAdjustmentsGo pfR dist ts n specsR).isOk = true ∧
    (∀ (spec : TrackAdjustmentSpec K) (rest : List (TrackAdjustmentSpec K))
       (dQ tQ : ℕ → K) (m : ℕ) (lastD lastT : K) (st' : K × K),
       resolveLocator pf dQ tQ m lastD lastT spec.pointSpec =
         Except.ok (st', none) →
       resolveSpecs pf dQ tQ m (spec :: rest) lastD lastT =
         resolveSpecs pf dQ tQ m rest st'.1 st'.2) := by
  refine ⟨parseAdjustmentLines_err_iff pf (content.splitOn "\n"), ?_, ?_⟩
  · rw [applyTrackAdjustmentsGo]
    by_cases hemp : specsR.isEmpty = true
    · rw [if_pos hemp]
      rfl
    · rw [if_neg hemp]
      have hok := resolveSpecs_wellFormed_ok pfR dist ts n specsR 0 0 hwf
      cases hres : resolveSpecs pfR dist ts n specsR 0 0 with
      | error e =>
          rw [hres] at hok
          exact Bool.noConfusion hok
      | ok changes => rfl
  · intro spec rest dQ tQ m lastD lastT st' hres
    exact resolveSpecs_skip pf dQ tQ m spec rest lastD lastT st' hres

/-- C8 witness: the directive list `[⟨"0", 2, none⟩]` (a well-formed
locator) makes `applyTrackAdjustments` succeed; the empty file parses
without error; an unresolved locator is skipped by the resolution loop. -/
theorem parseTrackAdjustmentFile_error_iff_witness :
    (∀ spec ∈ ([⟨"0", (2 : ℝ), none⟩] : List (TrackAdjustmentSpec ℝ)),
        wellFormedLocator (fun _ => some (1 : ℝ)) spec.pointSpec) ∧
    (((parseTrackAdjustmentFile (fun _ => (none : Option ℚ)) "").isOk = false ↔
        ∃ line ∈ ("" : String).splitOn "\n", ¬(line.trim = "") ∧
          badLine (fun _ => (none : Option ℚ)) line.trim) ∧
      (applyTrackAdjustmentsGo (fun _ => some (1 : ℝ)) (fun _ => 0) (fun _ => 0)
          0 [⟨"0", (2 : ℝ), none⟩]).isOk = true ∧
      (∀ (spec : TrackAdjustmentSpec ℚ) (rest : List (TrackAdjustmentSpec ℚ))
        (dQ tQ : ℕ → ℚ) (m : ℕ) (lastD lastT : ℚ) (st' : ℚ × ℚ),
        resolveLocator (fun _ => (none : Option ℚ)) dQ tQ m lastD lastT
            spec.pointSpec = Except.ok (st', none) →
        resolveSpecs (fun _ => (none : Option ℚ)) dQ tQ m (spec :: rest)
            lastD lastT =
          resolveSpecs (fun _ => (none : Option ℚ)) dQ tQ m rest st'.1 st'.2)) := by
  have hwf : ∀ spec ∈ ([⟨"0", (2 : ℝ), none⟩] : List (TrackAdjustmentSpec ℝ)),
      wellFormedLocator (fun _ => some (1 : ℝ)) spec.pointSpec := by
    intro spec hspec
    rw [List.mem_singleton] at hspec
    subst hspec
    left
    rfl
  exact ⟨hwf, parseTrackAdjustmentFile_error_iff (fun _ => (none : Option ℚ)) ""
    (fun _ => some (1 : ℝ)) (fun _ => 0) (fun _ => 0) 0 _ hwf⟩

/-! ## C10: `cutTrack` and `parseCutBoundary` -/

/-- The `Track` struct: raw points, preprocessed series, total distance and
the render window. -/
structure Track (K : Type) where
  points : List (Point K)
  smoothedPoints : List (Point K)
  totalDistance : K
  renderFromIndex : ℕ
  renderToIndex : ℕ

/-- `parseCutBoundary` (lines 617-646): empty series yields 0; an `s` suffix
(checked first) searches by elapsed time, a `km` suffix by cumulative
distance, each falling back to 0 on a parse error and to `len(points)` when
no point qualifies; any other shape yields 0. -/
def parseCutBoundary (pf : String → Option K) (boundary : String)
    (points : List (Point K)) : ℕ :=
  if points.length = 0 then 0
  else if boundary.endsWith "s" then
    match pf (boundary.dropRight 1) with
    | none => 0
    | some seconds =>
        (firstIdxFrom
          (fun i => decide (seconds ≤
            (points.getD i default).timestamp - (points.getD 0 default).timestamp))
          points.length 0).getD points.length
  else if boundary.endsWith "km" then
    match pf (boundary.dropRight 2) with
    | none => 0
    | some km =>
        (firstIdxFrom (fun i => decide (km ≤ (points.getD i default).distance))
          points.length 0).getD points.length
  else 0

/-- `cutTrack` (lines 648-656): resolve both boundaries against the smoothed
series, then reset the window to `[0, 0)` if it is empty or inverted. -/
def cutTrack (pf : String → Option K) (track : Track K)
    (fromB toB : String) : Track K :=
  if parseCutBoundary pf toB track.smoothedPoints ≤
      parseCutBoundary pf fromB track.smoothedPoints then
    { track with renderFromIndex := 0, renderToIndex := 0 }
  else
    { track with
        renderFromIndex := parseCutBoundary pf fromB track.smoothedPoints,
        renderToIndex := parseCutBoundary pf toB track.smoothedPoints }

/-- C10: after `cutTrack` the render window satisfies
`renderFromIndex ≤ renderToIndex`; whenever the resolved from-boundary is at
or past the resolved to-boundary both indices are reset to 0; and no field
of the track other than the two render indices changes. -/
theorem cutTrack_render_window (pf : String → Option K) (track : Track K)
    (fromB toB : String) :
    (cutTrack pf track fromB toB).renderFromIndex ≤
      (cutTrack pf track fromB toB).renderToIndex ∧
    (parseCutBoundary pf toB track.smoothedPoints ≤
        parseCutBoundary pf fromB track.smoothedPoints →
      (cutTrack pf track fromB toB).renderFromIndex = 0 ∧
      (cutTrack pf track fromB toB).renderToIndex = 0) ∧
    (cutTrack pf track fromB toB).points = track.points ∧
    (cutTrack pf track fromB toB).smoothedPoints = track.smoothedPoints ∧
    (cutTrack pf track fromB toB).totalDistance = track.totalDistance := by
  by_cases h : parseCutBoundary pf toB track.smoothedPoints ≤
      parseCutBoundary pf fromB track.smoothedPoints
  · rw [cutTrack, if_pos h]
    exact ⟨le_refl 0, fun _ => ⟨rfl, rfl⟩, rfl, rfl, rfl⟩
  · rw [cutTrack, if_neg h]
    exact ⟨Nat.le_of_lt (Nat.lt_of_not_le h), fun hc => absurd hc h, rfl, rfl, rfl⟩

/-- C10 witness: on an empty smoothed series both boundaries resolve to 0,
the window is reset to `[0, 0)` and the other fields survive unchanged. -/
theorem cutTrack_render_window_witness :
    parseCutBoundary (fun _ => (none : Option ℚ)) "" ([] : List (Point ℚ)) ≤
      parseCutBoundary (fun _ => (none : Option ℚ)) "" ([] : List (Point ℚ)) ∧
    (cutTrack (fun _ => (none : Option ℚ)) ⟨[], [], 0, 5, 7⟩ "" "").renderFromIndex = 0 ∧
    (cutTrack (fun _ => (none : Option ℚ)) ⟨[], [], 0, 5, 7⟩ "" "").renderToIndex = 0 ∧
    (cutTrack (fun _ => (none : Option ℚ)) ⟨[], [], 0, 5, 7⟩ "" "").totalDistance = 0 :=
  ⟨le_refl _,
    ((cutTrack_render_window (fun _ => (none : Option ℚ)) ⟨[], [], 0, 5, 7⟩ "" "").2.1
      (le_refl _)).1,
    ((cutTrack_render_window (fun _ => (none : Option ℚ)) ⟨[], [], 0, 5, 7⟩ "" "").2.1
      (le_refl _)).2,
    (cutTrack_render_window (fun _ => (none : Option ℚ)) ⟨[], [], 0, 5, 7⟩ "" "").2.2.2.2⟩
